import Mathlib

/-!
Verification development for the element-comparator sorting header
(`zguiElementComparator.h`): a shallow embedding in Lean 4 of

* `sortArray` — in-place sort of the inclusive index range
  `[firstElement, lastElement]`, with two algorithms selected by
  `retainOrderOfEquivalentItems`: a stable adjacent-transposition scan
  (retain-order mode) and a hybrid selection-sort / iterative Hoare-partition
  quicksort with an explicit auxiliary stack (non-stable mode);
* `findInsertIndexInSortedArray` — binary search for the insertion index of a
  new element into a sorted half-open range;
* `DefaultElementComparator::compareElements` — the natural-order comparator.

The array is modelled extensionally as a total function `Int → α` (the C++
code addresses a raw pointer with `int` indices; all of its reads and writes
are at in-range indices, so the extension to a total function is conservative).
Machine `int` indices are modelled as unbounded `Int`; where a claim depends on
the `int` width the bound `2 ^ 31` appears as an explicit hypothesis.
Every loop of the source is embedded as a structurally recursive function:
loops whose iteration count is a simple function of the state use that exact
count as the recursion counter (so the embedded function is total exactly like
the source loop), while the two outer driver loops of `sortArray`, whose
termination is a theorem rather than a syntactic fact, take an explicit fuel
argument and return `none` on exhaustion.  Termination of the source loop then
appears as the theorem that some fuel yields `some`.
-/

namespace ZguiElementComparator

universe u

variable {α : Type u}

/-- The in-place swap primitive `swapVariables (array[p], array[q])`, acting on
the extensional array model: the function agreeing with `a` everywhere except
that the values at indices `p` and `q` are exchanged. -/
def swapF (a : Int → α) (p q : Int) : Int → α :=
  fun k => if k = p then a q else if k = q then a p else a k

/-- The index transposition underlying `swapF`:
`swapF a p q = a ∘ swapIdx p q` pointwise. -/
def swapIdx (p q : Int) : Int → Int :=
  fun k => if k = p then q else if k = q then p else k

/-- `DefaultElementComparator<ElementType>::compareElements`:
`(first < second) ? -1 : ((second < first) ? 1 : 0)`, generically over a
decidable `<`.  Specialised to `Int` below for concrete examples. -/
def defaultCompareElements [LT α] [DecidableRel ((· < ·) : α → α → Prop)]
    (first second : α) : Int :=
  if first < second then -1 else if second < first then 1 else 0

/-- The consistency contract for a caller-supplied three-way comparator
(`compareElements`): the sign flips when the arguments are exchanged, and
non-positivity (the "precedes or equivalent" relation) is transitive. -/
def Consistent (cmp : α → α → Int) : Prop :=
  (∀ x y, 0 < cmp x y ↔ cmp y x < 0) ∧
  (∀ x y z, cmp x y ≤ 0 → cmp y z ≤ 0 → cmp x z ≤ 0)

/-- Retain-order (stable) branch of `sortArray`:
`for (int i = firstElement; i < lastElement; ++i) { if (cmp(a[i], a[i+1]) > 0)
{ swap(a[i], a[i+1]); if (i > firstElement) i -= 2; } }`.
One constructor step is one loop iteration (condition test, optional swap and
cursor adjustment, then the `++i` of the `for`).  The loop has no syntactic
bound, so it consumes fuel; `none` means the fuel ran out before the loop
exited. -/
def retainOrderLoop (cmp : α → α → Int) :
    Nat → (Int → α) → Int → Int → Int → Option (Int → α)
  | 0, _, _, _, _ => none
  | fuel+1, a, firstElement, lastElement, i =>
    if i < lastElement then
      if 0 < cmp (a i) (a (i + 1)) then
        retainOrderLoop cmp fuel (swapF a i (i + 1)) firstElement lastElement
          (if firstElement < i then i - 1 else i + 1)
      else
        retainOrderLoop cmp fuel a firstElement lastElement (i + 1)
    else
      some a

/-- Inner scan of the selection sort used for ranges of size ≤ 8:
`maxIndex = firstElement; for (k = firstElement + 1; k <= j; ++k)
if (cmp(a[k], a[maxIndex]) > 0) maxIndex = k;`.
`m` is the running `maxIndex`, `k` the scan cursor, and the counter is the
exact remaining iteration count `(j - k + 1).toNat`. -/
def selScan (cmp : α → α → Int) (a : Int → α) : Nat → Int → Int → Int
  | 0, m, _ => m
  | n+1, m, k => selScan cmp a n (if 0 < cmp (a k) (a m) then k else m) (k + 1)

/-- Outer loop of the selection sort:
`while (j > firstElement) { maxIndex = scan; swap(a[j], a[maxIndex]); --j; }`.
The counter is the exact remaining iteration count `(j - firstElement).toNat`. -/
def selSortGo (cmp : α → α → Int) : Nat → (Int → α) → Int → Int → (Int → α)
  | 0, a, _, _ => a
  | n+1, a, firstElement, j =>
    selSortGo cmp n
      (swapF a j (selScan cmp a (j - firstElement).toNat firstElement (firstElement + 1)))
      firstElement (j - 1)

/-- Selection sort of the inclusive range `[firstElement, lastElement]`
(the `size <= 8` branch of the non-stable path). -/
def selSort (cmp : α → α → Int) (a : Int → α) (firstElement lastElement : Int) :
    Int → α :=
  selSortGo cmp (lastElement - firstElement).toNat a firstElement lastElement

/-- Ascending cursor of the Hoare partition:
`while (++i <= lastElement && cmp(a[i], a[firstElement]) <= 0) {}`.
Called with counter `(lastElement - i).toNat`, which is the exact number of
times the bound test `++i <= lastElement` can still succeed. -/
def scanUpGo (cmp : α → α → Int) (a : Int → α) (firstElement : Int) :
    Nat → Int → Int
  | 0, i => i + 1
  | n+1, i =>
    if cmp (a (i + 1)) (a firstElement) ≤ 0 then scanUpGo cmp a firstElement n (i + 1)
    else i + 1

/-- Ascending cursor of the Hoare partition, starting from cursor value `i`. -/
def scanUp (cmp : α → α → Int) (a : Int → α) (firstElement lastElement i : Int) : Int :=
  scanUpGo cmp a firstElement (lastElement - i).toNat i

/-- Descending cursor of the Hoare partition:
`while (--j > firstElement && cmp(a[j], a[firstElement]) >= 0) {}`.
Called with counter `(j - 1 - firstElement).toNat`, the exact number of times
the bound test `--j > firstElement` can still succeed. -/
def scanDownGo (cmp : α → α → Int) (a : Int → α) (firstElement : Int) :
    Nat → Int → Int
  | 0, j => j - 1
  | n+1, j =>
    if 0 ≤ cmp (a (j - 1)) (a firstElement) then scanDownGo cmp a firstElement n (j - 1)
    else j - 1

/-- Descending cursor of the Hoare partition, starting from cursor value `j`. -/
def scanDown (cmp : α → α → Int) (a : Int → α) (firstElement j : Int) : Int :=
  scanDownGo cmp a firstElement (j - 1 - firstElement).toNat j

/-- Hoare partition loop:
`for (;;) { advance i; retreat j; if (j < i) break; swap(a[i], a[j]); }`.
Returns the array together with the final cursors `(i, j)`.  The counter is an
upper bound on the iteration count (the ascending cursor strictly increases and
never passes `lastElement + 1`); callers supply `(lastElement + 1 - i).toNat`,
which is proved sufficient, so the `0` case is unreachable from them. -/
def partGo (cmp : α → α → Int) (firstElement lastElement : Int) :
    Nat → (Int → α) → Int → Int → (Int → α) × Int × Int
  | 0, a, i, j => (a, i, j)
  | n+1, a, i, j =>
    let i' := scanUp cmp a firstElement lastElement i
    let j' := scanDown cmp a firstElement j
    if j' < i' then (a, i', j')
    else partGo cmp firstElement lastElement n (swapF a i' j') i' j'

/-- One full partition step of the quicksort branch (`size > 8`):
swap the midpoint element to `firstElement`, run the Hoare partition from
cursors `(firstElement, lastElement + 1)`, then swap the pivot
`a[firstElement]` with `a[j]`.  Returns the array and the final `(i, j)`. -/
def partitionStep (cmp : α → α → Int) (a : Int → α) (firstElement lastElement : Int) :
    (Int → α) × Int × Int :=
  let size := lastElement - firstElement + 1
  let mid := firstElement + size / 2
  let b := swapF a mid firstElement
  let r := partGo cmp firstElement lastElement (lastElement + 1 - firstElement).toNat
    b firstElement (lastElement + 1)
  (swapF r.1 r.2.2 firstElement, r.2.1, r.2.2)

/-- State of the iterative non-stable driver loop: the array, the current
working range `[lo, hi]`, and the auxiliary stack of deferred ranges
(`fromStack`/`toStack` entries, head = top = index `stackIndex - 1`). -/
structure QState (α : Type*) where
  arr : Int → α
  lo : Int
  hi : Int
  stack : List (Int × Int)

/-- End-of-iteration pop: `if (--stackIndex < 0) break;
firstElement = fromStack[stackIndex]; lastElement = toStack[stackIndex];`.
`Sum.inl` is the `break` (the sort is finished), `Sum.inr` continues with the
popped range. -/
def qPop (a : Int → α) : List (Int × Int) → (Int → α) ⊕ QState α
  | [] => Sum.inl a
  | (lo, hi) :: rest => Sum.inr ⟨a, lo, hi, rest⟩

/-- Distribution of the two sub-ranges `[lo, j-1]` and `[i, hi]` produced by a
partition step: compare their sizes (`j - 1 - lo >= hi - i`), push the larger
one (if it has at least 2 elements), and continue in place with the smaller one
(if it has at least 2 elements), otherwise pop. -/
def afterPartition (a2 : Int → α) (lo hi i j : Int) (st : List (Int × Int)) :
    (Int → α) ⊕ QState α :=
  if hi - i ≤ j - 1 - lo then
    let st1 := if lo + 1 < j then (lo, j - 1) :: st else st
    if i < hi then Sum.inr ⟨a2, i, hi, st1⟩ else qPop a2 st1
  else
    let st1 := if i < hi then (i, hi) :: st else st
    if lo + 1 < j then Sum.inr ⟨a2, lo, j - 1, st1⟩ else qPop a2 st1

/-- One iteration of the outer `for (;;)` loop of the non-stable path:
selection sort (then pop) when the working range has size ≤ 8, otherwise a
partition step followed by push/continue/pop distribution. -/
def qIter (cmp : α → α → Int) (s : QState α) : (Int → α) ⊕ QState α :=
  if s.hi - s.lo + 1 ≤ 8 then
    qPop (selSort cmp s.arr s.lo s.hi) s.stack
  else
    let p := partitionStep cmp s.arr s.lo s.hi
    afterPartition p.1 s.lo s.hi p.2.1 p.2.2 s.stack

/-- Fuelled driver of the non-stable path: iterate `qIter` until it breaks.
`none` means the fuel ran out first. -/
def qLoop (cmp : α → α → Int) : Nat → QState α → Option (Int → α)
  | 0, _ => none
  | fuel+1, s =>
    match qIter cmp s with
    | Sum.inl a => some a
    | Sum.inr s' => qLoop cmp fuel s'

/-- The sort entry point
`sortArray (comparator, array, firstElement, lastElement,
retainOrderOfEquivalentItems)`.  The comparator object is modelled by its
`compareElements` member `cmp`; the guard `lastElement > firstElement`, the
branch on `retainOrderOfEquivalentItems` and the two algorithms follow the
source.  `fuel` bounds the iteration count of the chosen driver loop; `some`
is a completed run. -/
def sortArray (cmp : α → α → Int) (fuel : Nat) (a : Int → α)
    (firstElement lastElement : Int) (retainOrderOfEquivalentItems : Bool) :
    Option (Int → α) :=
  if firstElement < lastElement then
    if retainOrderOfEquivalentItems then
      retainOrderLoop cmp fuel a firstElement lastElement firstElement
    else
      qLoop cmp fuel ⟨a, firstElement, lastElement, []⟩
  else
    some a

/-- Loop of `findInsertIndexInSortedArray`.  One constructor step is one
iteration of `while (firstElement < lastElement)`.  The range shrinks by at
least one per iteration, so the counter `(lastElement - firstElement).toNat`
supplied by the wrapper is exact; `halfway = (firstElement + lastElement) >> 1`
is floor division by two (`Int./` here is Euclidean division, which agrees
with the arithmetic shift for the divisor 2). -/
def findLoopGo (cmp : α → α → Int) (newElement : α) (a : Int → α) :
    Nat → Int → Int → Int
  | 0, firstElement, _ => firstElement
  | fuel+1, firstElement, lastElement =>
    if firstElement < lastElement then
      if cmp newElement (a firstElement) = 0 then firstElement + 1
      else
        let halfway := (firstElement + lastElement) / 2
        if halfway = firstElement then
          if 0 ≤ cmp newElement (a halfway) then firstElement + 1 else firstElement
        else if 0 ≤ cmp newElement (a halfway) then
          findLoopGo cmp newElement a fuel halfway lastElement
        else
          findLoopGo cmp newElement a fuel firstElement halfway
    else firstElement

/-- `findInsertIndexInSortedArray (comparator, array, newElement, firstElement,
lastElement)` — binary search over the half-open range
`[firstElement, lastElement)` of a sorted array. -/
def findInsertIndexInSortedArray (cmp : α → α → Int) (a : Int → α)
    (newElement : α) (firstElement lastElement : Int) : Int :=
  findLoopGo cmp newElement a (lastElement - firstElement).toNat
    firstElement lastElement

/-- Instrumented twin of `findLoopGo` that also records, in order, the indices
probed by the comparator (`a[firstElement]` at the loop head, then
`a[halfway]`).  Its second component coincides with `findLoopGo`
(`findLoopTr_result`). -/
def findLoopTr (cmp : α → α → Int) (newElement : α) (a : Int → α) :
    Nat → Int → Int → List Int × Int
  | 0, firstElement, _ => ([], firstElement)
  | fuel+1, firstElement, lastElement =>
    if firstElement < lastElement then
      if cmp newElement (a firstElement) = 0 then ([firstElement], firstElement + 1)
      else
        let halfway := (firstElement + lastElement) / 2
        if halfway = firstElement then
          ([firstElement, halfway],
            if 0 ≤ cmp newElement (a halfway) then firstElement + 1 else firstElement)
        else if 0 ≤ cmp newElement (a halfway) then
          let r := findLoopTr cmp newElement a fuel halfway lastElement
          (firstElement :: halfway :: r.1, r.2)
        else
          let r := findLoopTr cmp newElement a fuel firstElement halfway
          (firstElement :: halfway :: r.1, r.2)
    else ([], firstElement)

/-! ### Specification predicates and measures over the embedded code -/

/-- The multiset of values an array holds on the inclusive index range
`[f, l]`. -/
def winMset (a : Int → α) (f l : Int) : Multiset α :=
  (Finset.Icc f l).val.map a

/-- The in-place mutation relation for a call operating on the window `[f, l]`:
indices outside the window are untouched and the window's contents are
permuted. -/
def PermWithin (f l : Int) (a b : Int → α) : Prop :=
  (∀ k, k < f ∨ l < k → b k = a k) ∧ winMset b f l = winMset a f l

/-- Two arrays agree on the inclusive index range `[f, l]`. -/
def AgreeOn (f l : Int) (a b : Int → α) : Prop :=
  ∀ t, f ≤ t → t ≤ l → a t = b t

/-- Ranges handled by the non-stable driver (current range and stack entries)
stay inside the original window `[f, l]`. -/
def RangesIn (f l : Int) (s : QState α) : Prop :=
  (f ≤ s.lo ∧ s.hi ≤ l) ∧ ∀ r ∈ s.stack, f ≤ r.1 ∧ r.2 ≤ l

/-- Index `k` lies in one of the pending ranges. -/
def inRanges (rs : List (Int × Int)) (k : Int) : Prop :=
  ∃ r ∈ rs, r.1 ≤ k ∧ k ≤ r.2

/-- Two pending ranges are separated by at least one index. -/
def RangeGap (r r' : Int × Int) : Prop :=
  r.2 + 1 < r'.1 ∨ r'.2 + 1 < r.1

/-- Invariant of the non-stable driver: the pending ranges (current working
range consed onto the stack) are subranges of the window separated by gaps;
every adjacent pair not touching a pending range is already ordered; and each
pending range is bounded by its (already final) neighbour elements. -/
structure QSortInv (cmp : α → α → Int) (f l : Int) (a : Int → α)
    (rs : List (Int × Int)) : Prop where
  rsub : ∀ r ∈ rs, f ≤ r.1 ∧ r.1 ≤ r.2 ∧ r.2 ≤ l
  rgap : rs.Pairwise RangeGap
  freePairs : ∀ k, f ≤ k → k + 1 ≤ l → ¬ inRanges rs k → ¬ inRanges rs (k + 1) →
    cmp (a k) (a (k + 1)) ≤ 0
  bndL : ∀ r ∈ rs, f < r.1 → ∀ x ∈ winMset a r.1 r.2, cmp (a (r.1 - 1)) x ≤ 0
  bndR : ∀ r ∈ rs, r.2 < l → ∀ x ∈ winMset a r.1 r.2, cmp x (a (r.2 + 1)) ≤ 0

/-- Number of out-of-order pairs (inversions) of the window, the decreasing
part of the termination measure of the retain-order loop. -/
def invCnt (cmp : α → α → Int) (a : Int → α) (f l : Int) : Nat :=
  ((Finset.Icc f l ×ˢ Finset.Icc f l).filter
    (fun pq => pq.1 < pq.2 ∧ 0 < cmp (a pq.1) (a pq.2))).card

/-- Number of elements of an inclusive pending range. -/
def rangeSize : Int × Int → Nat
  | (u, v) => (v - u + 1).toNat

/-- Termination measure of the non-stable driver: twice the number of pending
elements plus the stack depth. -/
def qMeasure (s : QState α) : Nat :=
  2 * (rangeSize (s.lo, s.hi) + (s.stack.map rangeSize).sum) + s.stack.length

/-- Size chain on the stack (entries listed top first): each entry is at
least as large as the current range together with everything pushed after
it. -/
def chainBound (c : Nat) : List Nat → Prop
  | [] => True
  | t :: rest => c ≤ t ∧ chainBound (c + t) rest

/-- Depth invariant of the non-stable driver: the stack sizes form a chain,
the pending sizes fit in the original window size `n`, and the depth is at
most 28. -/
structure QDepthInv (n : Nat) (s : QState α) : Prop where
  chain : chainBound (rangeSize (s.lo, s.hi)) (s.stack.map rangeSize)
  total : rangeSize (s.lo, s.hi) + (s.stack.map rangeSize).sum ≤ n
  depth : s.stack.length ≤ 28

/-- Iterate the non-stable driver a fixed number of steps (`none` when the
driver has already finished). -/
def qIterN (cmp : α → α → Int) : Nat → QState α → Option (QState α)
  | 0, s => some s
  | n+1, s =>
    match qIter cmp s with
    | Sum.inl _ => none
    | Sum.inr s' => qIterN cmp n s'

/-! ### Concrete instances used to exercise the embedding -/

/-- The sorted array `[1, 3, 3, 5]` of the spec's worked example, held on
indices 0 through 3 (other indices hold 0). -/
def arr1335 : Int → Int := fun k =>
  if k = 0 then 1 else if k = 1 then 3 else if k = 2 then 3 else
  if k = 3 then 5 else 0

/-- The strictly increasing array `[2, 4, 6, 8]` on indices 0 through 3. -/
def arrStrict : Int → Int := fun k =>
  if k = 0 then 2 else if k = 1 then 4 else if k = 2 then 6 else
  if k = 3 then 8 else 0

/-- The identity-valued array `0, 1, ..., 9` on indices 0 through 9: a
10-element window routes the non-stable path into its quicksort branch. -/
def arrTen : Int → Int := fun k => if 0 ≤ k ∧ k ≤ 9 then k else 0

/-- A comparator on pairs that inspects only the first component: distinct
payloads with equal keys compare as 0. -/
def cmpFst : Int × Int → Int × Int → Int := fun x y =>
  defaultCompareElements x.1 y.1

/-- Two pairs with equal keys and distinct payloads, in payload order (a
range already sorted under `cmpFst`). -/
def pairArr : Int → Int × Int := fun k =>
  if k = 0 then (1, 10) else if k = 1 then (1, 20) else (0, 0)

/-! ### Basic facts about the swap primitive -/

theorem swapF_eq_comp (a : Int → α) (p q : Int) :
    swapF a p q = fun k => a (swapIdx p q k) := by
  funext k
  simp only [swapF, swapIdx]
  split_ifs <;> rfl

theorem swapIdx_invol (p q k : Int) : swapIdx p q (swapIdx p q k) = k := by
  simp only [swapIdx]
  split_ifs <;> omega

theorem swapF_self (a : Int → α) (p : Int) : swapF a p p = a := by
  funext k
  simp only [swapF]
  split_ifs with h
  · rw [h]
  · rfl

theorem swapF_invol (a : Int → α) (p q : Int) : swapF (swapF a p q) p q = a := by
  funext k
  simp only [swapF]
  split_ifs <;> first
    | rfl
    | (apply congrArg a; omega)

theorem swapF_apply_left (a : Int → α) (p q : Int) : swapF a p q p = a q := by
  simp [swapF]

theorem swapF_apply_right (a : Int → α) (p q : Int) : swapF a p q q = a p := by
  simp only [swapF]
  split_ifs with h
  · rw [h]
  · rfl

theorem swapF_apply_of_ne (a : Int → α) (p q k : Int) (hp : k ≠ p) (hq : k ≠ q) :
    swapF a p q k = a k := by
  simp [swapF, hp, hq]

/-! ### Facts about consistent comparators -/

theorem Consistent.self_eq_zero {cmp : α → α → Int} (hc : Consistent cmp) (x : α) :
    cmp x x = 0 := by
  have h := hc.1 x x
  omega

theorem Consistent.flip_nonpos {cmp : α → α → Int} (hc : Consistent cmp) {x y : α}
    (h : 0 ≤ cmp x y) : cmp y x ≤ 0 := by
  have h1 := hc.1 y x
  omega

theorem Consistent.flip_nonneg {cmp : α → α → Int} (hc : Consistent cmp) {x y : α}
    (h : cmp x y ≤ 0) : 0 ≤ cmp y x := by
  have h1 := hc.1 x y
  omega

theorem Consistent.zero_symm {cmp : α → α → Int} (hc : Consistent cmp) {x y : α}
    (h : cmp x y = 0) : cmp y x = 0 := by
  have h1 := hc.1 x y
  have h2 := hc.1 y x
  omega

theorem Consistent.pos_flip {cmp : α → α → Int} (hc : Consistent cmp) {x y : α}
    (h : 0 < cmp x y) : cmp y x < 0 := (hc.1 x y).mp h

theorem Consistent.trans_nonpos {cmp : α → α → Int} (hc : Consistent cmp) {x y z : α}
    (h1 : cmp x y ≤ 0) (h2 : cmp y z ≤ 0) : cmp x z ≤ 0 := hc.2 x y z h1 h2

/-! ### The window multiset: contents of an inclusive index range -/

theorem mem_winMset {a : Int → α} {f l : Int} {x : α} :
    x ∈ winMset a f l ↔ ∃ k, f ≤ k ∧ k ≤ l ∧ a k = x := by
  simp only [winMset, Multiset.mem_map, Finset.mem_val, Finset.mem_Icc]
  constructor
  · rintro ⟨k, ⟨h1, h2⟩, h3⟩
    exact ⟨k, h1, h2, h3⟩
  · rintro ⟨k, h1, h2, h3⟩
    exact ⟨k, ⟨h1, h2⟩, h3⟩

theorem winMset_congr {a b : Int → α} {f l : Int}
    (h : ∀ k, f ≤ k → k ≤ l → a k = b k) : winMset a f l = winMset b f l := by
  apply Multiset.map_congr rfl
  intro k hk
  rw [Finset.mem_val, Finset.mem_Icc] at hk
  exact h k hk.1 hk.2

theorem winMset_mono {a : Int → α} {f l u v : Int} (hu : f ≤ u) (hv : v ≤ l) :
    winMset a u v ≤ winMset a f l :=
  Multiset.map_le_map (Finset.val_le_iff.mpr (Finset.Icc_subset_Icc hu hv))

theorem apply_mem_winMset {a : Int → α} {f l k : Int} (h1 : f ≤ k) (h2 : k ≤ l) :
    a k ∈ winMset a f l :=
  mem_winMset.mpr ⟨k, h1, h2, rfl⟩

theorem winMset_swapF {a : Int → α} {f l p q : Int}
    (hp1 : f ≤ p) (hp2 : p ≤ l) (hq1 : f ≤ q) (hq2 : q ≤ l) :
    winMset (swapF a p q) f l = winMset a f l := by
  have hmem : ∀ k, k ∈ Finset.Icc f l → swapIdx p q k ∈ Finset.Icc f l := by
    intro k hk
    rw [Finset.mem_Icc] at hk ⊢
    simp only [swapIdx]
    split <;> [omega; split <;> omega]
  have hinj : Set.InjOn (swapIdx p q) (Finset.Icc f l) := by
    intro x _ y _ hxy
    have := swapIdx_invol p q x
    have := swapIdx_invol p q y
    rw [← swapIdx_invol p q x, hxy, swapIdx_invol]
  have himg : Finset.image (swapIdx p q) (Finset.Icc f l) = Finset.Icc f l := by
    apply Finset.Subset.antisymm
    · intro y hy
      rw [Finset.mem_image] at hy
      obtain ⟨x, hx, rfl⟩ := hy
      exact hmem x hx
    · intro y hy
      rw [Finset.mem_image]
      refine ⟨swapIdx p q y, hmem y hy, swapIdx_invol p q y⟩
  calc winMset (swapF a p q) f l
      = (Finset.Icc f l).val.map (fun k => a (swapIdx p q k)) := by
        rw [winMset, swapF_eq_comp]
    _ = ((Finset.Icc f l).val.map (swapIdx p q)).map a := by
        rw [Multiset.map_map]; rfl
    _ = ((Finset.Icc f l).image (swapIdx p q)).val.map a := by
        rw [Finset.image_val_of_injOn hinj]
    _ = winMset a f l := by rw [himg]; rfl


theorem PermWithin.refl (f l : Int) (a : Int → α) : PermWithin f l a a :=
  ⟨fun _ _ => rfl, rfl⟩

theorem PermWithin.trans {f l : Int} {a b c : Int → α}
    (h1 : PermWithin f l a b) (h2 : PermWithin f l b c) : PermWithin f l a c :=
  ⟨fun k hk => (h2.1 k hk).trans (h1.1 k hk), h2.2.trans h1.2⟩

theorem PermWithin.swapF_perm {f l p q : Int} (a : Int → α)
    (hp1 : f ≤ p) (hp2 : p ≤ l) (hq1 : f ≤ q) (hq2 : q ≤ l) :
    PermWithin f l a (swapF a p q) := by
  constructor
  · intro k hk
    exact swapF_apply_of_ne a p q k (by omega) (by omega)
  · exact winMset_swapF hp1 hp2 hq1 hq2

theorem winMset_split (a : Int → α) {f m l : Int} (h1 : f ≤ m + 1) (h2 : m ≤ l) :
    winMset a f l = winMset a f m + winMset a (m + 1) l := by
  have hdisj : Disjoint (Finset.Icc f m) (Finset.Icc (m + 1) l) := by
    rw [Finset.disjoint_left]
    intro k hk1 hk2
    rw [Finset.mem_Icc] at hk1 hk2
    omega
  have hunion : Finset.Icc f l = (Finset.Icc f m).disjUnion (Finset.Icc (m + 1) l) hdisj := by
    ext k
    rw [Finset.mem_disjUnion]
    simp only [Finset.mem_Icc]
    omega
  have hval : (Finset.Icc f l).val = (Finset.Icc f m).val + (Finset.Icc (m + 1) l).val := by
    rw [hunion]
    rfl
  rw [winMset, hval, Multiset.map_add]
  rfl

theorem PermWithin.weaken {f l lo hi : Int} {a b : Int → α}
    (h : PermWithin lo hi a b) (h1 : f ≤ lo) (h2 : hi ≤ l) : PermWithin f l a b := by
  refine ⟨fun k hk => h.1 k (by omega), ?_⟩
  by_cases hcase : lo ≤ hi + 1
  · have hl : lo - 1 + 1 = lo := by omega
    have e1 : winMset b f l = winMset b f (lo - 1) + winMset b lo l := by
      have h0 := @winMset_split _ b f (lo - 1) l (by omega) (by omega)
      rw [hl] at h0
      exact h0
    have e2 : winMset b lo l = winMset b lo hi + winMset b (hi + 1) l :=
      winMset_split b (by omega) h2
    have f1 : winMset a f l = winMset a f (lo - 1) + winMset a lo l := by
      have h0 := @winMset_split _ a f (lo - 1) l (by omega) (by omega)
      rw [hl] at h0
      exact h0
    have f2 : winMset a lo l = winMset a lo hi + winMset a (hi + 1) l :=
      winMset_split a (by omega) h2
    have c1 : winMset b f (lo - 1) = winMset a f (lo - 1) :=
      winMset_congr (fun k hk1 hk2 => h.1 k (by omega))
    have c2 : winMset b (hi + 1) l = winMset a (hi + 1) l :=
      winMset_congr (fun k hk1 hk2 => h.1 k (by omega))
    rw [e1, e2, f1, f2, c1, c2, h.2]
  · have hpt : ∀ k, b k = a k := fun k => h.1 k (by omega)
    exact winMset_congr (fun k _ _ => hpt k)

/-! ### Frame and permutation behaviour of each loop -/

theorem selScan_bounds (cmp : α → α → Int) (a : Int → α) (lo hi : Int) :
    ∀ (n : Nat) (m k : Int), lo ≤ m → m ≤ hi → lo ≤ k → k + (n : Int) ≤ hi + 1 →
      lo ≤ selScan cmp a n m k ∧ selScan cmp a n m k ≤ hi := by
  intro n
  induction n with
  | zero => intro m k h1 h2 _ _; exact ⟨h1, h2⟩
  | succ n ih =>
    intro m k h1 h2 h3 h4
    rw [selScan]
    apply ih
    · split <;> omega
    · split <;> omega
    · omega
    · omega

theorem selSortGo_permWithin (cmp : α → α → Int) {f l : Int} (lo : Int) (hflo : f ≤ lo) :
    ∀ n (a : Int → α) j, n = (j - lo).toNat → j ≤ l →
      PermWithin f l a (selSortGo cmp n a lo j) := by
  intro n
  induction n with
  | zero => intro a j _ _; rw [selSortGo]; exact PermWithin.refl f l a
  | succ n ih =>
    intro a j hn hj
    have hloj : lo < j := by omega
    rw [selSortGo]
    have hr := selScan_bounds cmp a lo j (j - lo).toNat lo (lo + 1)
      (le_refl lo) (by omega) (by omega) (by omega)
    refine PermWithin.trans ?_ (ih _ (j - 1) (by omega) (by omega))
    exact PermWithin.swapF_perm a (by omega) hj (by omega) (by omega)

theorem scanUpGo_ge (cmp : α → α → Int) (a : Int → α) (lo : Int) :
    ∀ (n : Nat) (i : Int), i + 1 ≤ scanUpGo cmp a lo n i := by
  intro n
  induction n with
  | zero => intro i; exact le_refl _
  | succ n ih =>
    intro i
    rw [scanUpGo]
    split
    · have := ih (i + 1)
      omega
    · exact le_refl _

theorem scanUpGo_spec (cmp : α → α → Int) (a : Int → α) (lo hi : Int) :
    ∀ n i, n = (hi - i).toNat → i ≤ hi →
      i + 1 ≤ scanUpGo cmp a lo n i ∧ scanUpGo cmp a lo n i ≤ hi + 1 ∧
      (∀ k, i < k → k < scanUpGo cmp a lo n i → cmp (a k) (a lo) ≤ 0) ∧
      (scanUpGo cmp a lo n i ≤ hi → 0 < cmp (a (scanUpGo cmp a lo n i)) (a lo)) := by
  intro n
  induction n with
  | zero =>
    intro i hn hi'
    have : i = hi := by omega
    rw [scanUpGo]
    exact ⟨le_refl _, by omega, fun k h1 h2 => by omega, fun h => by omega⟩
  | succ n ih =>
    intro i hn hi'
    have hilt : i < hi := by omega
    rw [scanUpGo]
    split
    · rename_i hcmp
      obtain ⟨s1, s2, s3, s4⟩ := ih (i + 1) (by omega) (by omega)
      refine ⟨by omega, s2, ?_, s4⟩
      intro k h1 h2
      rcases eq_or_lt_of_le (by omega : i + 1 ≤ k) with h | h
      · rw [← h]; exact hcmp
      · exact s3 k (by omega) h2
    · rename_i hcmp
      exact ⟨le_refl _, by omega, fun k h1 h2 => by omega, fun _ => by omega⟩

theorem scanDownGo_spec (cmp : α → α → Int) (a : Int → α) (lo : Int) :
    ∀ n j, n = (j - 1 - lo).toNat → lo < j →
      scanDownGo cmp a lo n j ≤ j - 1 ∧ lo ≤ scanDownGo cmp a lo n j ∧
      (∀ k, scanDownGo cmp a lo n j < k → k < j → 0 ≤ cmp (a k) (a lo)) ∧
      (lo < scanDownGo cmp a lo n j → cmp (a (scanDownGo cmp a lo n j)) (a lo) < 0) := by
  intro n
  induction n with
  | zero =>
    intro j hn hj
    have : j = lo + 1 := by omega
    rw [scanDownGo]
    exact ⟨le_refl _, by omega, fun k h1 h2 => by omega, fun h => by omega⟩
  | succ n ih =>
    intro j hn hj
    have hjgt : lo + 1 < j := by omega
    rw [scanDownGo]
    split
    · rename_i hcmp
      obtain ⟨s1, s2, s3, s4⟩ := ih (j - 1) (by omega) (by omega)
      refine ⟨by omega, s2, ?_, s4⟩
      intro k h1 h2
      rcases eq_or_lt_of_le (by omega : k ≤ j - 1) with h | h
      · rw [h]; exact hcmp
      · exact s3 k h1 (by omega)
    · rename_i hcmp
      exact ⟨le_refl _, by omega, fun k h1 h2 => by omega, fun _ => by omega⟩

theorem scanUp_spec (cmp : α → α → Int) (a : Int → α) (lo hi i : Int) (h : i ≤ hi) :
    i + 1 ≤ scanUp cmp a lo hi i ∧ scanUp cmp a lo hi i ≤ hi + 1 ∧
    (∀ k, i < k → k < scanUp cmp a lo hi i → cmp (a k) (a lo) ≤ 0) ∧
    (scanUp cmp a lo hi i ≤ hi → 0 < cmp (a (scanUp cmp a lo hi i)) (a lo)) :=
  scanUpGo_spec cmp a lo hi (hi - i).toNat i rfl h

theorem scanDown_spec (cmp : α → α → Int) (a : Int → α) (lo j : Int) (h : lo < j) :
    scanDown cmp a lo j ≤ j - 1 ∧ lo ≤ scanDown cmp a lo j ∧
    (∀ k, scanDown cmp a lo j < k → k < j → 0 ≤ cmp (a k) (a lo)) ∧
    (lo < scanDown cmp a lo j → cmp (a (scanDown cmp a lo j)) (a lo) < 0) :=
  scanDownGo_spec cmp a lo (j - 1 - lo).toNat j rfl h

theorem partGo_spec (cmp : α → α → Int) (lo hi : Int) :
    ∀ n (a : Int → α) i j,
      lo ≤ i → i ≤ hi → lo < j → j ≤ hi + 1 → (hi + 1 - i).toNat ≤ n →
      (∀ k, lo < k → k ≤ i → cmp (a k) (a lo) ≤ 0) →
      (∀ k, j ≤ k → k ≤ hi → 0 ≤ cmp (a k) (a lo)) →
      ∀ c i1 j1, partGo cmp lo hi n a i j = (c, i1, j1) →
      (∀ k, k ≤ lo ∨ hi < k → c k = a k) ∧
      winMset c lo hi = winMset a lo hi ∧
      lo ≤ j1 ∧ j1 < i1 ∧ i1 ≤ hi + 1 ∧
      (∀ k, lo < k → k < i1 → cmp (c k) (c lo) ≤ 0) ∧
      (∀ k, j1 < k → k ≤ hi → 0 ≤ cmp (c k) (c lo)) ∧
      (lo < j1 → cmp (c j1) (c lo) < 0) := by
  intro n
  induction n with
  | zero => intro a i j h1 h2 h3 h4 h5 _ _ c i1 j1 _; omega
  | succ n ih =>
    intro a i j h1 h2 h3 h4 h5 hIi hIj c i1 j1 heq
    rw [partGo] at heq
    obtain ⟨u1, u2, u3, u4⟩ := scanUp_spec cmp a lo hi i h2
    obtain ⟨d1, d2, d3, d4⟩ := scanDown_spec cmp a lo j h3
    by_cases hbr : scanDown cmp a lo j < scanUp cmp a lo hi i
    · rw [if_pos hbr] at heq
      simp only [Prod.mk.injEq] at heq
      obtain ⟨rfl, rfl, rfl⟩ := heq
      refine ⟨fun k _ => rfl, rfl, d2, hbr, u2, ?_, ?_, d4⟩
      · intro k hk1 hk2
        rcases le_or_lt k i with h | h
        · exact hIi k hk1 h
        · exact u3 k h hk2
      · intro k hk1 hk2
        rcases le_or_lt j k with h | h
        · exact hIj k h hk2
        · exact d3 k hk1 h
    · rw [if_neg hbr] at heq
      push_neg at hbr
      set i' := scanUp cmp a lo hi i with hi'def
      set j' := scanDown cmp a lo j with hj'def
      have hij' : i' < j' := by
        rcases eq_or_lt_of_le hbr with h | h
        · exfalso
          have hu := u4 (by omega)
          have hd := d4 (by omega)
          rw [← h] at hd
          omega
        · exact h
      have hi'hi : i' ≤ hi := by omega
      have hlo_ne_i : (lo : Int) ≠ i' := by omega
      have hlo_ne_j : (lo : Int) ≠ j' := by omega
      have hblo : swapF a i' j' lo = a lo := swapF_apply_of_ne a i' j' lo hlo_ne_i hlo_ne_j
      have hIi' : ∀ k, lo < k → k ≤ i' → cmp (swapF a i' j' k) (swapF a i' j' lo) ≤ 0 := by
        intro k hk1 hk2
        rw [hblo]
        rcases eq_or_lt_of_le hk2 with h | h
        · rw [h, swapF_apply_left]
          have := d4 (by omega)
          omega
        · rw [swapF_apply_of_ne a i' j' k (by omega) (by omega)]
          rcases le_or_lt k i with h' | h'
          · exact hIi k hk1 h'
          · exact u3 k h' h
      have hIj' : ∀ k, j' ≤ k → k ≤ hi → 0 ≤ cmp (swapF a i' j' k) (swapF a i' j' lo) := by
        intro k hk1 hk2
        rw [hblo]
        rcases eq_or_lt_of_le hk1 with h | h
        · rw [← h, swapF_apply_right]
          have := u4 (by omega)
          omega
        · rw [swapF_apply_of_ne a i' j' k (by omega) (by omega)]
          rcases le_or_lt j k with h' | h'
          · exact hIj k h' hk2
          · exact d3 k h h'
      obtain ⟨r1, r2, r3, r4, r5, r6, r7, r8⟩ :=
        ih (swapF a i' j') i' j' (by omega) hi'hi (by omega) (by omega) (by omega)
          hIi' hIj' c i1 j1 heq
      refine ⟨?_, ?_, r3, r4, r5, r6, r7, r8⟩
      · intro k hk
        rw [r1 k hk]
        exact swapF_apply_of_ne a i' j' k (by omega) (by omega)
      · rw [r2]
        exact winMset_swapF (by omega) (by omega) (by omega) (by omega)

theorem partitionStep_spec (cmp : α → α → Int) (a : Int → α) (lo hi : Int)
    (hlohi : lo ≤ hi) :
    ∀ a2 i1 j1, partitionStep cmp a lo hi = (a2, i1, j1) →
    (∀ k, k < lo ∨ hi < k → a2 k = a k) ∧
    winMset a2 lo hi = winMset a lo hi ∧
    lo ≤ j1 ∧ j1 < i1 ∧ i1 ≤ hi + 1 ∧
    (∀ k, lo ≤ k → k < j1 → cmp (a2 k) (a2 j1) ≤ 0) ∧
    (∀ k, j1 < k → k ≤ hi → 0 ≤ cmp (a2 k) (a2 j1)) ∧
    (∀ k, j1 < k → k < i1 → cmp (a2 k) (a2 j1) ≤ 0) := by
  intro a2 i1 j1 heq
  simp only [partitionStep] at heq
  set mid := lo + (hi - lo + 1) / 2 with hmid
  have hmid1 : lo ≤ mid := by omega
  have hmid2 : mid ≤ hi := by omega
  set b := swapF a mid lo with hb
  obtain ⟨c, ci, cj, hc⟩ : ∃ c ci cj,
      partGo cmp lo hi (hi + 1 - lo).toNat b lo (hi + 1) = (c, ci, cj) :=
    ⟨_, _, _, rfl⟩
  rw [hc] at heq
  obtain ⟨r1, r2, r3, r4, r5, r6, r7, r8⟩ :=
    partGo_spec cmp lo hi (hi + 1 - lo).toNat b lo (hi + 1)
      (le_refl lo) hlohi (by omega) (le_refl _) (le_refl _)
      (fun k hk1 hk2 => by omega) (fun k hk1 hk2 => by omega) c ci cj hc
  obtain ⟨rfl, rfl, rfl⟩ : swapF c cj lo = a2 ∧ ci = i1 ∧ cj = j1 :=
    ⟨congrArg Prod.fst heq, congrArg (fun z => z.2.1) heq, congrArg (fun z => z.2.2) heq⟩
  have hcjhi : cj ≤ hi := by omega
  have ha2j : swapF c cj lo cj = c lo := swapF_apply_left c cj lo
  refine ⟨?_, ?_, r3, r4, r5, ?_, ?_, ?_⟩
  · intro k hk
    rw [swapF_apply_of_ne c cj lo k (by omega) (by omega), r1 k (by omega)]
    exact swapF_apply_of_ne a mid lo k (by omega) (by omega)
  · calc winMset (swapF c cj lo) lo hi
        = winMset c lo hi := winMset_swapF r3 hcjhi (le_refl lo) hlohi
      _ = winMset b lo hi := r2
      _ = winMset a lo hi := winMset_swapF hmid1 hmid2 (le_refl lo) hlohi
  · intro k hk1 hk2
    rw [ha2j]
    rcases eq_or_lt_of_le hk1 with h | h
    · rw [← h, swapF_apply_right]
      have := r8 (by omega)
      omega
    · rw [swapF_apply_of_ne c cj lo k (by omega) (by omega)]
      exact r6 k h (by omega)
  · intro k hk1 hk2
    rw [ha2j, swapF_apply_of_ne c cj lo k (by omega) (by omega)]
    exact r7 k hk1 hk2
  · intro k hk1 hk2
    rw [ha2j, swapF_apply_of_ne c cj lo k (by omega) (by omega)]
    exact r6 k (by omega) hk2


theorem qPop_permWithin {f l : Int} {a' : Int → α} {st : List (Int × Int)}
    (hst : ∀ r ∈ st, f ≤ r.1 ∧ r.2 ≤ l) :
    (∀ b, qPop a' st = Sum.inl b → b = a') ∧
    (∀ s', qPop a' st = Sum.inr s' → s'.arr = a' ∧ RangesIn f l s') := by
  cases st with
  | nil =>
    refine ⟨fun b hb => ?_, fun s' hs' => by simp [qPop] at hs'⟩
    simp only [qPop] at hb
    exact (Sum.inl.inj hb).symm
  | cons r rest =>
    refine ⟨fun b hb => by simp [qPop] at hb, fun s' hs' => ?_⟩
    simp only [qPop] at hs'
    have hs2 := Sum.inr.inj hs'
    subst hs2
    have hr := hst r (List.mem_cons_self r rest)
    exact ⟨rfl, ⟨hr, fun r' hr' => hst r' (List.mem_cons_of_mem r hr')⟩⟩

theorem qIter_permWithin (cmp : α → α → Int) {f l : Int} (s : QState α)
    (hr : RangesIn f l s) :
    (∀ a', qIter cmp s = Sum.inl a' → PermWithin f l s.arr a') ∧
    (∀ s', qIter cmp s = Sum.inr s' →
      PermWithin f l s.arr s'.arr ∧ RangesIn f l s') := by
  obtain ⟨⟨hflo, hhil⟩, hst⟩ := hr
  rw [qIter]
  split
  · -- selection branch
    rename_i hsize
    have hsel : PermWithin f l s.arr (selSort cmp s.arr s.lo s.hi) :=
      selSortGo_permWithin cmp s.lo hflo _ s.arr s.hi rfl hhil
    obtain ⟨hp1, hp2⟩ := @qPop_permWithin _ _ _ (selSort cmp s.arr s.lo s.hi) _ hst
    constructor
    · intro a' ha'
      rw [hp1 a' ha']
      exact hsel
    · intro s' hs'
      obtain ⟨he, hri⟩ := hp2 s' hs'
      exact ⟨he ▸ hsel, hri⟩
  · -- partition branch
    rename_i hsize
    have hlohi : s.lo ≤ s.hi := by omega
    obtain ⟨a2, i1, j1, hps⟩ : ∃ a2 i1 j1,
        partitionStep cmp s.arr s.lo s.hi = (a2, i1, j1) := ⟨_, _, _, rfl⟩
    obtain ⟨w1, w2, w3, w4, w5, _, _, _⟩ :=
      partitionStep_spec cmp s.arr s.lo s.hi hlohi a2 i1 j1 hps
    have hperm : PermWithin f l s.arr a2 :=
      PermWithin.weaken ⟨w1, w2⟩ hflo hhil
    rw [hps]
    show (∀ a', afterPartition a2 s.lo s.hi i1 j1 s.stack = Sum.inl a' → _) ∧
      (∀ s', afterPartition a2 s.lo s.hi i1 j1 s.stack = Sum.inr s' → _)
    simp only [afterPartition]
    have hstL : ∀ r ∈ (if s.lo + 1 < j1 then (s.lo, j1 - 1) :: s.stack else s.stack),
        f ≤ r.1 ∧ r.2 ≤ l := by
      split
      · intro r hr
        rcases List.mem_cons.mp hr with rfl | hmem
        · exact ⟨hflo, by omega⟩
        · exact hst r hmem
      · exact hst
    have hstS : ∀ r ∈ (if i1 < s.hi then (i1, s.hi) :: s.stack else s.stack),
        f ≤ r.1 ∧ r.2 ≤ l := by
      split
      · intro r hr
        rcases List.mem_cons.mp hr with rfl | hmem
        · exact ⟨by omega, hhil⟩
        · exact hst r hmem
      · exact hst
    split
    · -- push left, maybe continue right
      split
      · -- continue with (i1, s.hi)
        refine ⟨fun a' ha' => by simp at ha', fun s' hs' => ?_⟩
        have hs2 := Sum.inr.inj hs'
        subst hs2
        exact ⟨hperm, ⟨⟨show f ≤ i1 by omega, hhil⟩, hstL⟩⟩
      · -- pop
        obtain ⟨hp1, hp2⟩ := @qPop_permWithin _ _ _ a2 _ hstL
        refine ⟨fun a' ha' => (hp1 a' ha') ▸ hperm, fun s' hs' => ?_⟩
        obtain ⟨he, hri⟩ := hp2 s' hs'
        exact ⟨he ▸ hperm, hri⟩
    · -- push right, maybe continue left
      split
      · refine ⟨fun a' ha' => by simp at ha', fun s' hs' => ?_⟩
        have hs2 := Sum.inr.inj hs'
        subst hs2
        exact ⟨hperm, ⟨⟨hflo, show j1 - 1 ≤ l by omega⟩, hstS⟩⟩
      · obtain ⟨hp1, hp2⟩ := @qPop_permWithin _ _ _ a2 _ hstS
        refine ⟨fun a' ha' => (hp1 a' ha') ▸ hperm, fun s' hs' => ?_⟩
        obtain ⟨he, hri⟩ := hp2 s' hs'
        exact ⟨he ▸ hperm, hri⟩

theorem qLoop_permWithin (cmp : α → α → Int) {f l : Int} :
    ∀ (fuel : Nat) (s : QState α) (out : Int → α), RangesIn f l s →
      qLoop cmp fuel s = some out → PermWithin f l s.arr out := by
  intro fuel
  induction fuel with
  | zero => intro s out _ h; simp [qLoop] at h
  | succ fuel ih =>
    intro s out hr h
    rw [qLoop] at h
    obtain ⟨hinl, hinr⟩ := qIter_permWithin cmp s hr
    cases hq : qIter cmp s with
    | inl a' =>
      rw [hq] at h
      obtain rfl : a' = out := by
        cases h
        rfl
      exact hinl _ hq
    | inr s' =>
      rw [hq] at h
      obtain ⟨hperm, hri⟩ := hinr s' hq
      exact hperm.trans (ih s' out hri h)

theorem retainOrderLoop_permWithin (cmp : α → α → Int) {f l : Int} :
    ∀ (fuel : Nat) (a : Int → α) (i : Int) (out : Int → α), f ≤ i →
      retainOrderLoop cmp fuel a f l i = some out → PermWithin f l a out := by
  intro fuel
  induction fuel with
  | zero => intro a i out _ h; simp [retainOrderLoop] at h
  | succ fuel ih =>
    intro a i out hfi h
    rw [retainOrderLoop] at h
    split at h
    · rename_i hil
      split at h
      · rename_i hcmp
        refine PermWithin.trans ?_ (ih _ _ out ?_ h)
        · exact PermWithin.swapF_perm a hfi (by omega) (by omega) (by omega)
        · split <;> omega
      · exact ih _ _ out (by omega) h
    · obtain rfl : a = out := by
        cases h
        rfl
      exact PermWithin.refl f l a

/-- Master frame and permutation lemma for `sortArray` (both modes): a
completed run only permutes the window `[firstElement, lastElement]` and
leaves every other index untouched. -/
theorem sortArray_permWithin (cmp : α → α → Int) (fuel : Nat) (a : Int → α)
    (f l : Int) (mode : Bool) (out : Int → α)
    (h : sortArray cmp fuel a f l mode = some out) : PermWithin f l a out := by
  rw [sortArray] at h
  split at h
  · rename_i hfl
    split at h
    · exact retainOrderLoop_permWithin cmp fuel a f out (le_refl f) h
    · exact qLoop_permWithin cmp fuel ⟨a, f, l, []⟩ out
        ⟨⟨le_refl f, le_refl l⟩, fun r hr => by simp at hr⟩ h
  · obtain rfl : a = out := by
      cases h
      rfl
    exact PermWithin.refl f l a

/-! ### Read independence: the behaviour depends only on the window contents -/


theorem AgreeOn.swapF_agree {f l p q : Int} {a b : Int → α} (h : AgreeOn f l a b)
    (hp1 : f ≤ p) (hp2 : p ≤ l) (hq1 : f ≤ q) (hq2 : q ≤ l) :
    AgreeOn f l (swapF a p q) (swapF b p q) := by
  intro t ht1 ht2
  simp only [ZguiElementComparator.swapF]
  split_ifs
  · exact h q hq1 hq2
  · exact h p hp1 hp2
  · exact h t ht1 ht2

theorem AgreeOn.mono {f l u v : Int} {a b : Int → α} (h : AgreeOn f l a b)
    (hu : f ≤ u) (hv : v ≤ l) : AgreeOn u v a b :=
  fun t ht1 ht2 => h t (by omega) (by omega)

theorem selScan_agree (cmp : α → α → Int) {a b : Int → α} {lo hi : Int}
    (hab : AgreeOn lo hi a b) :
    ∀ (n : Nat) (m k : Int), lo ≤ m → m ≤ hi → lo ≤ k → k + (n : Int) ≤ hi + 1 →
      selScan cmp a n m k = selScan cmp b n m k := by
  intro n
  induction n with
  | zero => intro m k _ _ _ _; rfl
  | succ n ih =>
    intro m k h1 h2 h3 h4
    rw [selScan, selScan, hab k h3 (by omega), hab m h1 h2]
    split
    · exact ih k (k + 1) h3 (by omega) (by omega) (by omega)
    · exact ih m (k + 1) h1 h2 (by omega) (by omega)

theorem selSortGo_agree (cmp : α → α → Int) (lo hi : Int) :
    ∀ (n : Nat) (a b : Int → α) (j : Int), AgreeOn lo hi a b →
      n = (j - lo).toNat → j ≤ hi →
      AgreeOn lo hi (selSortGo cmp n a lo j) (selSortGo cmp n b lo j) := by
  intro n
  induction n with
  | zero => intro a b j hab _ _; exact hab
  | succ n ih =>
    intro a b j hab hn hj
    have hloj : lo < j := by omega
    rw [selSortGo, selSortGo]
    have hscan : selScan cmp a (j - lo).toNat lo (lo + 1) =
        selScan cmp b (j - lo).toNat lo (lo + 1) :=
      selScan_agree cmp hab _ lo (lo + 1) (le_refl lo) (by omega) (by omega) (by omega)
    have hr := selScan_bounds cmp a lo j (j - lo).toNat lo (lo + 1)
      (le_refl lo) (by omega) (by omega) (by omega)
    rw [← hscan]
    exact ih _ _ (j - 1)
      (hab.swapF_agree (by omega) hj (by omega) (by omega)) (by omega) (by omega)

theorem scanUpGo_agree (cmp : α → α → Int) {a b : Int → α} {lo hi : Int}
    (hab : AgreeOn lo hi a b) (hlo : lo ≤ hi) :
    ∀ (n : Nat) (i : Int), n = (hi - i).toNat → lo ≤ i →
      scanUpGo cmp a lo n i = scanUpGo cmp b lo n i := by
  intro n
  induction n with
  | zero => intro i _ _; rfl
  | succ n ih =>
    intro i hn hi'
    rw [scanUpGo, scanUpGo, hab (i + 1) (by omega) (by omega), hab lo (le_refl lo) hlo]
    split
    · exact ih (i + 1) (by omega) (by omega)
    · rfl

theorem scanDownGo_agree (cmp : α → α → Int) {a b : Int → α} {lo hi : Int}
    (hab : AgreeOn lo hi a b) (hlo : lo ≤ hi) :
    ∀ (n : Nat) (j : Int), n = (j - 1 - lo).toNat → j ≤ hi + 1 →
      scanDownGo cmp a lo n j = scanDownGo cmp b lo n j := by
  intro n
  induction n with
  | zero => intro j _ _; rfl
  | succ n ih =>
    intro j hn hj
    rw [scanDownGo, scanDownGo, hab (j - 1) (by omega) (by omega), hab lo (le_refl lo) hlo]
    split
    · exact ih (j - 1) (by omega) (by omega)
    · rfl

theorem partGo_agree (cmp : α → α → Int) (lo hi : Int) (hlo : lo ≤ hi) :
    ∀ (n : Nat) (a b : Int → α) (i j : Int), AgreeOn lo hi a b →
      lo ≤ i → lo < j → j ≤ hi + 1 →
      (partGo cmp lo hi n a i j).2 = (partGo cmp lo hi n b i j).2 ∧
      AgreeOn lo hi (partGo cmp lo hi n a i j).1 (partGo cmp lo hi n b i j).1 := by
  intro n
  induction n with
  | zero => intro a b i j hab _ _ _; exact ⟨rfl, hab⟩
  | succ n ih =>
    intro a b i j hab hi' hj1 hj2
    have hup : scanUp cmp a lo hi i = scanUp cmp b lo hi i :=
      scanUpGo_agree cmp hab hlo _ i rfl hi'
    have hdn : scanDown cmp a lo j = scanDown cmp b lo j :=
      scanDownGo_agree cmp hab hlo _ j rfl hj2
    have hge : i + 1 ≤ scanUp cmp b lo hi i := scanUpGo_ge cmp b lo _ i
    have hd1 := (scanDown_spec cmp b lo j hj1).1
    have hd2 := (scanDown_spec cmp b lo j hj1).2.1
    rw [partGo, partGo, hup, hdn]
    split
    · exact ⟨rfl, hab⟩
    · rename_i hbr
      push_neg at hbr
      exact ih _ _ _ _
        (hab.swapF_agree (by omega) (by omega) (by omega) (by omega))
        (by omega) (by omega) (by omega)

theorem partitionStep_eq_partGo (cmp : α → α → Int) (x : Int → α) (lo hi : Int) :
    partitionStep cmp x lo hi =
      (swapF (partGo cmp lo hi (hi + 1 - lo).toNat
          (swapF x (lo + (hi - lo + 1) / 2) lo) lo (hi + 1)).1
        (partGo cmp lo hi (hi + 1 - lo).toNat
          (swapF x (lo + (hi - lo + 1) / 2) lo) lo (hi + 1)).2.2 lo,
       (partGo cmp lo hi (hi + 1 - lo).toNat
          (swapF x (lo + (hi - lo + 1) / 2) lo) lo (hi + 1)).2.1,
       (partGo cmp lo hi (hi + 1 - lo).toNat
          (swapF x (lo + (hi - lo + 1) / 2) lo) lo (hi + 1)).2.2) := rfl

theorem partitionStep_agree (cmp : α → α → Int) {a b : Int → α} {lo hi : Int}
    (hab : AgreeOn lo hi a b) (hlo : lo ≤ hi) :
    (partitionStep cmp a lo hi).2 = (partitionStep cmp b lo hi).2 ∧
    AgreeOn lo hi (partitionStep cmp a lo hi).1 (partitionStep cmp b lo hi).1 := by
  obtain ⟨a2, i1, j1, hpa⟩ : ∃ a2 i1 j1,
      partitionStep cmp a lo hi = (a2, i1, j1) := ⟨_, _, _, rfl⟩
  obtain ⟨w1, w2, w3, w4, w5, _, _, _⟩ := partitionStep_spec cmp a lo hi hlo a2 i1 j1 hpa
  have hmid1 : lo ≤ lo + (hi - lo + 1) / 2 := by omega
  have hmid2 : lo + (hi - lo + 1) / 2 ≤ hi := by omega
  have hab2 : AgreeOn lo hi (swapF a (lo + (hi - lo + 1) / 2) lo)
      (swapF b (lo + (hi - lo + 1) / 2) lo) :=
    hab.swapF_agree hmid1 hmid2 (le_refl lo) hlo
  obtain ⟨hsnd, hfst⟩ := partGo_agree cmp lo hi hlo (hi + 1 - lo).toNat _ _ lo (hi + 1)
    hab2 (le_refl lo) (by omega) (le_refl _)
  have hj1a : (partGo cmp lo hi (hi + 1 - lo).toNat
      (swapF a (lo + (hi - lo + 1) / 2) lo) lo (hi + 1)).2.2 = j1 := by
    have := congrArg (fun z => z.2.2) ((partitionStep_eq_partGo cmp a lo hi).symm.trans hpa)
    exact this
  have hj1b : (partGo cmp lo hi (hi + 1 - lo).toNat
      (swapF b (lo + (hi - lo + 1) / 2) lo) lo (hi + 1)).2.2 = j1 := by
    rw [← hj1a]
    exact (congrArg Prod.snd hsnd).symm
  rw [partitionStep_eq_partGo cmp a lo hi, partitionStep_eq_partGo cmp b lo hi]
  constructor
  · simp only [Prod.mk.injEq]
    exact ⟨congrArg Prod.fst hsnd, congrArg Prod.snd hsnd⟩
  · rw [hj1a, hj1b]
    exact hfst.swapF_agree w3 (by omega) (le_refl lo) hlo

theorem qPop_shape (x y : Int → α) (st : List (Int × Int)) :
    (∀ a', qPop x st = Sum.inl a' → a' = x ∧ qPop y st = Sum.inl y) ∧
    (∀ s', qPop x st = Sum.inr s' →
      s'.arr = x ∧ qPop y st = Sum.inr ⟨y, s'.lo, s'.hi, s'.stack⟩) := by
  cases st with
  | nil =>
    refine ⟨fun a' ha' => ⟨(Sum.inl.inj ha').symm, rfl⟩, fun s' hs' => ?_⟩
    simp [qPop] at hs'
  | cons r rest =>
    refine ⟨fun a' ha' => by simp [qPop] at ha', fun s' hs' => ?_⟩
    simp only [qPop] at hs'
    have := Sum.inr.inj hs'
    subst this
    exact ⟨rfl, rfl⟩

theorem afterPartition_shape (x y : Int → α) (lo hi i j : Int)
    (st : List (Int × Int)) :
    (∀ a', afterPartition x lo hi i j st = Sum.inl a' →
      a' = x ∧ afterPartition y lo hi i j st = Sum.inl y) ∧
    (∀ s', afterPartition x lo hi i j st = Sum.inr s' →
      s'.arr = x ∧ afterPartition y lo hi i j st = Sum.inr ⟨y, s'.lo, s'.hi, s'.stack⟩) := by
  simp only [afterPartition]
  split
  · split
    · refine ⟨fun a' ha' => by simp at ha', fun s' hs' => ?_⟩
      have := Sum.inr.inj hs'
      subst this
      exact ⟨rfl, rfl⟩
    · exact qPop_shape x y _
  · split
    · refine ⟨fun a' ha' => by simp at ha', fun s' hs' => ?_⟩
      have := Sum.inr.inj hs'
      subst this
      exact ⟨rfl, rfl⟩
    · exact qPop_shape x y _

theorem selSort_agree_window (cmp : α → α → Int) {f l lo hi : Int} {a b : Int → α}
    (hab : AgreeOn f l a b) (hflo : f ≤ lo) (hhil : hi ≤ l) :
    AgreeOn f l (selSort cmp a lo hi) (selSort cmp b lo hi) := by
  intro t ht1 ht2
  by_cases hin : lo ≤ t ∧ t ≤ hi
  · exact selSortGo_agree cmp lo hi _ a b hi (hab.mono hflo hhil) rfl (le_refl hi)
      t hin.1 hin.2
  · have hfa : PermWithin lo hi a (selSort cmp a lo hi) :=
      selSortGo_permWithin cmp lo (le_refl lo) _ a hi rfl (le_refl hi)
    have hfb : PermWithin lo hi b (selSort cmp b lo hi) :=
      selSortGo_permWithin cmp lo (le_refl lo) _ b hi rfl (le_refl hi)
    rw [hfa.1 t (by omega), hfb.1 t (by omega)]
    exact hab t ht1 ht2

theorem qIter_agree (cmp : α → α → Int) {f l : Int} (a b : Int → α)
    (lo hi : Int) (st : List (Int × Int)) (hab : AgreeOn f l a b)
    (hflo : f ≤ lo) (hhil : hi ≤ l) :
    (∀ a', qIter cmp ⟨a, lo, hi, st⟩ = Sum.inl a' →
      ∃ b', qIter cmp ⟨b, lo, hi, st⟩ = Sum.inl b' ∧ AgreeOn f l a' b') ∧
    (∀ s', qIter cmp ⟨a, lo, hi, st⟩ = Sum.inr s' →
      ∃ c', qIter cmp ⟨b, lo, hi, st⟩ = Sum.inr ⟨c', s'.lo, s'.hi, s'.stack⟩ ∧
        AgreeOn f l s'.arr c') := by
  rw [qIter, qIter]
  simp only []
  split
  · -- selection branch
    have hAg : AgreeOn f l (selSort cmp a lo hi) (selSort cmp b lo hi) :=
      selSort_agree_window cmp hab hflo hhil
    obtain ⟨hsl, hsr⟩ := qPop_shape (selSort cmp a lo hi) (selSort cmp b lo hi) st
    constructor
    · intro a' ha'
      obtain ⟨rfl, hb⟩ := hsl a' ha'
      exact ⟨_, hb, hAg⟩
    · intro s' hs'
      obtain ⟨he, hb⟩ := hsr s' hs'
      exact ⟨_, hb, he ▸ hAg⟩
  · -- partition branch
    rename_i hsize
    have hlohi : lo ≤ hi := by omega
    obtain ⟨hsnd, hfst⟩ := partitionStep_agree cmp (hab.mono hflo hhil) hlohi
    obtain ⟨a2, i1, j1, hpa⟩ : ∃ a2 i1 j1,
        partitionStep cmp a lo hi = (a2, i1, j1) := ⟨_, _, _, rfl⟩
    obtain ⟨b2, i1b, j1b, hpb⟩ : ∃ b2 i1b j1b,
        partitionStep cmp b lo hi = (b2, i1b, j1b) := ⟨_, _, _, rfl⟩
    have hij : i1 = i1b ∧ j1 = j1b := by
      rw [hpa, hpb] at hsnd
      exact ⟨congrArg Prod.fst hsnd, congrArg Prod.snd hsnd⟩
    obtain ⟨rfl, rfl⟩ := hij
    obtain ⟨wa1, _, wa3, wa4, wa5, _, _, _⟩ :=
      partitionStep_spec cmp a lo hi hlohi a2 i1 j1 hpa
    obtain ⟨wb1, _, _, _, _, _, _, _⟩ :=
      partitionStep_spec cmp b lo hi hlohi b2 i1 j1 hpb
    have hAg : AgreeOn f l a2 b2 := by
      intro t ht1 ht2
      by_cases hin : lo ≤ t ∧ t ≤ hi
      · have := hfst t hin.1 hin.2
        rw [hpa, hpb] at this
        exact this
      · rw [wa1 t (by omega), wb1 t (by omega)]
        exact hab t ht1 ht2
    rw [hpa, hpb]
    obtain ⟨hal, har⟩ := afterPartition_shape a2 b2 lo hi i1 j1 st
    constructor
    · intro a' ha'
      obtain ⟨rfl, hb⟩ := hal a' ha'
      exact ⟨_, hb, hAg⟩
    · intro s' hs'
      obtain ⟨he, hb⟩ := har s' hs'
      exact ⟨_, hb, he ▸ hAg⟩

theorem qLoop_agree (cmp : α → α → Int) {f l : Int} :
    ∀ (fuel : Nat) (a b : Int → α) (lo hi : Int) (st : List (Int × Int)),
      AgreeOn f l a b → f ≤ lo → hi ≤ l → (∀ r ∈ st, f ≤ r.1 ∧ r.2 ≤ l) →
      ∀ out, qLoop cmp fuel ⟨a, lo, hi, st⟩ = some out →
      ∃ outb, qLoop cmp fuel ⟨b, lo, hi, st⟩ = some outb ∧ AgreeOn f l out outb := by
  intro fuel
  induction fuel with
  | zero => intro a b lo hi st _ _ _ _ out h; simp [qLoop] at h
  | succ fuel ih =>
    intro a b lo hi st hab hflo hhil hst out h
    rw [qLoop] at h
    obtain ⟨hgl, hgr⟩ := qIter_agree cmp a b lo hi st hab hflo hhil
    cases hq : qIter cmp (⟨a, lo, hi, st⟩ : QState α) with
    | inl a' =>
      rw [hq] at h
      obtain rfl : a' = out := by
        cases h
        rfl
      obtain ⟨b', hb, hAg⟩ := hgl a' hq
      refine ⟨b', ?_, hAg⟩
      rw [qLoop, hb]
    | inr s' =>
      rw [hq] at h
      obtain ⟨c', hb, hAg⟩ := hgr s' hq
      have hri : RangesIn f l s' :=
        ((qIter_permWithin cmp ⟨a, lo, hi, st⟩
          ⟨⟨hflo, hhil⟩, hst⟩).2 s' hq).2
      obtain ⟨outb, houtb, hAg2⟩ := ih s'.arr c' s'.lo s'.hi s'.stack hAg
        hri.1.1 hri.1.2 hri.2 out h
      refine ⟨outb, ?_, hAg2⟩
      rw [qLoop, hb]
      exact houtb

theorem retainOrderLoop_agree (cmp : α → α → Int) {f l : Int} :
    ∀ (fuel : Nat) (a b : Int → α) (i : Int), AgreeOn f l a b → f ≤ i →
      ∀ out, retainOrderLoop cmp fuel a f l i = some out →
      ∃ outb, retainOrderLoop cmp fuel b f l i = some outb ∧ AgreeOn f l out outb := by
  intro fuel
  induction fuel with
  | zero => intro a b i _ _ out h; simp [retainOrderLoop] at h
  | succ fuel ih =>
    intro a b i hab hfi out h
    rw [retainOrderLoop] at h
    rw [retainOrderLoop]
    split at h
    · rename_i hil
      rw [if_pos hil]
      rw [← hab i hfi (by omega), ← hab (i + 1) (by omega) (by omega)]
      split at h
      · rename_i hcmp
        rw [if_pos hcmp]
        exact ih _ _ _ (hab.swapF_agree hfi (by omega) (by omega) (by omega))
          (by split <;> omega) out h
      · rename_i hcmp
        rw [if_neg hcmp]
        exact ih _ _ _ hab (by omega) out h
    · rename_i hil
      rw [if_neg hil]
      obtain rfl : a = out := by
        cases h
        rfl
      exact ⟨b, rfl, hab⟩

/-- Read independence of `sortArray`: if two arrays agree on the window
`[firstElement, lastElement]`, a completed run on the first is matched by a
completed run on the second (same fuel) whose output agrees on the window.
Together with `sortArray_permWithin` this renders "no read or write outside
the range": the outcome neither writes outside the window nor depends on any
value outside it. -/
theorem sortArray_agree (cmp : α → α → Int) (fuel : Nat) (a b : Int → α)
    (f l : Int) (mode : Bool) (out : Int → α)
    (hab : AgreeOn f l a b)
    (h : sortArray cmp fuel a f l mode = some out) :
    ∃ outb, sortArray cmp fuel b f l mode = some outb ∧ AgreeOn f l out outb := by
  rw [sortArray] at h
  rw [sortArray]
  split at h
  · rename_i hfl
    rw [if_pos hfl]
    split at h
    · rename_i hmode
      rw [if_pos hmode]
      exact retainOrderLoop_agree cmp fuel a b f hab (le_refl f) out h
    · rename_i hmode
      rw [if_neg hmode]
      exact qLoop_agree cmp fuel a b f l [] hab (le_refl f) (le_refl l)
        (fun r hr => by simp at hr) out h
  · rename_i hfl
    rw [if_neg hfl]
    obtain rfl : a = out := by
      cases h
      rfl
    exact ⟨b, rfl, hab⟩

/-! ### Functional correctness of the selection sort branch -/

theorem selScan_spec {cmp : α → α → Int} (hc : Consistent cmp) (a : Int → α) (lo : Int) :
    ∀ (n : Nat) (m k : Int), lo ≤ m → m < k →
      (∀ t, lo ≤ t → t < k → cmp (a t) (a m) ≤ 0) →
      lo ≤ selScan cmp a n m k ∧ selScan cmp a n m k < k + n ∧
      ∀ t, lo ≤ t → t < k + n → cmp (a t) (a (selScan cmp a n m k)) ≤ 0 := by
  intro n
  induction n with
  | zero =>
    intro m k h1 h2 hH
    rw [selScan]
    exact ⟨h1, by omega, fun t ht1 ht2 => hH t ht1 (by omega)⟩
  | succ n ih =>
    intro m k h1 h2 hH
    rw [selScan]
    split
    · rename_i hcmp
      have hH' : ∀ t, lo ≤ t → t < k + 1 → cmp (a t) (a k) ≤ 0 := by
        intro t ht1 ht2
        rcases eq_or_lt_of_le (by omega : t ≤ k) with h | h
        · rw [h]
          exact le_of_eq (hc.self_eq_zero (a k))
        · exact hc.trans_nonpos (hH t ht1 h) (le_of_lt (hc.pos_flip hcmp))
      obtain ⟨r1, r2, r3⟩ := ih k (k + 1) (by omega) (by omega) hH'
      exact ⟨r1, by omega, fun t ht1 ht2 => r3 t ht1 (by omega)⟩
    · rename_i hcmp
      have hH' : ∀ t, lo ≤ t → t < k + 1 → cmp (a t) (a m) ≤ 0 := by
        intro t ht1 ht2
        rcases eq_or_lt_of_le (by omega : t ≤ k) with h | h
        · rw [h]; omega
        · exact hH t ht1 h
      obtain ⟨r1, r2, r3⟩ := ih m (k + 1) h1 (by omega) hH'
      exact ⟨r1, by omega, fun t ht1 ht2 => r3 t ht1 (by omega)⟩

theorem selSortGo_sorted {cmp : α → α → Int} (hc : Consistent cmp) (lo hi : Int) :
    ∀ (n : Nat) (a : Int → α) (j : Int), n = (j - lo).toNat → j ≤ hi →
      (∀ m, j < m → m ≤ hi → ∀ k, lo ≤ k → k < m → cmp (a k) (a m) ≤ 0) →
      ∀ m, lo < m → m ≤ hi → ∀ k, lo ≤ k → k < m →
        cmp (selSortGo cmp n a lo j k) (selSortGo cmp n a lo j m) ≤ 0 := by
  intro n
  induction n with
  | zero =>
    intro a j hn hj hSS m hm1 hm2 k hk1 hk2
    rw [selSortGo]
    exact hSS m (by omega) hm2 k hk1 hk2
  | succ n ih =>
    intro a j hn hj hSS m hm1 hm2 k hk1 hk2
    have hloj : lo < j := by omega
    obtain ⟨r1, r2, r3⟩ := selScan_spec hc a lo (j - lo).toNat lo (lo + 1)
      (le_refl lo) (by omega)
      (fun t ht1 ht2 => by
        have : t = lo := by omega
        rw [this]
        exact le_of_eq (hc.self_eq_zero (a lo)))
    set r := selScan cmp a (j - lo).toNat lo (lo + 1) with hrdef
    have hrj : r ≤ j := by omega
    have hdom : ∀ t, lo ≤ t → t ≤ j → cmp (a t) (a r) ≤ 0 :=
      fun t ht1 ht2 => r3 t ht1 (by omega)
    rw [selSortGo]
    apply ih (swapF a j r) (j - 1) (by omega) (by omega) ?_ m hm1 hm2 k hk1 hk2
    intro m' hm'1 hm'2 k' hk'1 hk'2
    rcases eq_or_lt_of_le (by omega : j ≤ m') with hjm | hjm
    · -- m' = j : the new maximum position
      rw [← hjm, swapF_apply_left]
      by_cases hk'r : k' = r
      · rw [hk'r, swapF_apply_right]
        exact hdom j (by omega) (le_refl j)
      · rw [swapF_apply_of_ne a j r k' (by omega) hk'r]
        exact hdom k' hk'1 (by omega)
    · -- m' > j : already settled suffix
      rw [swapF_apply_of_ne a j r m' (by omega) (by omega)]
      by_cases hk'j : k' = j
      · rw [hk'j, swapF_apply_left]
        exact hSS m' hjm hm'2 r r1 (by omega)
      · by_cases hk'r : k' = r
        · rw [hk'r, swapF_apply_right]
          exact hSS m' hjm hm'2 j (by omega) hjm
        · rw [swapF_apply_of_ne a j r k' hk'j hk'r]
          exact hSS m' hjm hm'2 k' hk'1 hk'2

/-- Full pairwise dominance of `selSort` on its range, for a consistent
comparator: every element is comparator-below every later element. -/
theorem selSort_sorted {cmp : α → α → Int} (hc : Consistent cmp)
    (a : Int → α) (lo hi : Int) :
    ∀ m, lo < m → m ≤ hi → ∀ k, lo ≤ k → k < m →
      cmp (selSort cmp a lo hi k) (selSort cmp a lo hi m) ≤ 0 :=
  selSortGo_sorted hc lo hi _ a hi rfl (le_refl hi)
    (fun m hm1 hm2 => by omega)

/-! ### The sortedness invariant of the iterative quicksort driver -/



theorem rangeGap_symm : ∀ {r r' : Int × Int}, RangeGap r r' → RangeGap r' r :=
  fun h => h.elim Or.inr Or.inl


theorem inRanges_cons {c : Int × Int} {st : List (Int × Int)} {k : Int} :
    inRanges (c :: st) k ↔ (c.1 ≤ k ∧ k ≤ c.2) ∨ inRanges st k := by
  constructor
  · rintro ⟨r, hr, h1, h2⟩
    rcases List.mem_cons.mp hr with rfl | hmem
    · exact Or.inl ⟨h1, h2⟩
    · exact Or.inr ⟨r, hmem, h1, h2⟩
  · rintro (⟨h1, h2⟩ | ⟨r, hmem, h1, h2⟩)
    · exact ⟨c, List.mem_cons_self c st, h1, h2⟩
    · exact ⟨r, List.mem_cons_of_mem c hmem, h1, h2⟩

theorem inRanges_perm {rs rs' : List (Int × Int)} (hp : rs.Perm rs') (k : Int) :
    inRanges rs k ↔ inRanges rs' k := by
  constructor
  · rintro ⟨r, hr, h⟩
    exact ⟨r, hp.mem_iff.mp hr, h⟩
  · rintro ⟨r, hr, h⟩
    exact ⟨r, hp.mem_iff.mpr hr, h⟩

theorem QSortInv.perm {cmp : α → α → Int} {f l : Int} {a : Int → α}
    {rs rs' : List (Int × Int)} (hp : rs.Perm rs')
    (inv : QSortInv cmp f l a rs) : QSortInv cmp f l a rs' where
  rsub := fun r hr => inv.rsub r (hp.mem_iff.mpr hr)
  rgap := (hp.pairwise_iff (fun h => rangeGap_symm h)).mp inv.rgap
  freePairs := fun k h1 h2 h3 h4 =>
    inv.freePairs k h1 h2 (fun hin => h3 ((inRanges_perm hp k).mp hin))
      (fun hin => h4 ((inRanges_perm hp (k + 1)).mp hin))
  bndL := fun r hr => inv.bndL r (hp.mem_iff.mpr hr)
  bndR := fun r hr => inv.bndR r (hp.mem_iff.mpr hr)

/-- The left neighbour of the head pending range is not inside any pending
range. -/
theorem head_left_free {cmp : α → α → Int} {f l lo hi : Int} {a : Int → α}
    {st : List (Int × Int)} (inv : QSortInv cmp f l a ((lo, hi) :: st)) :
    ¬ inRanges ((lo, hi) :: st) (lo - 1) := by
  have hhead := inv.rsub (lo, hi) (List.mem_cons_self _ _)
  rintro ⟨r, hr, h1, h2⟩
  rcases List.mem_cons.mp hr with rfl | hmem
  · simp only [] at h1 h2
    omega
  · have hgap := (List.pairwise_cons.mp inv.rgap).1 r hmem
    simp only [] at hhead
    rcases hgap with h | h <;> simp only [] at h1 h2 h <;> omega

/-- The right neighbour of the head pending range is not inside any pending
range. -/
theorem head_right_free {cmp : α → α → Int} {f l lo hi : Int} {a : Int → α}
    {st : List (Int × Int)} (inv : QSortInv cmp f l a ((lo, hi) :: st)) :
    ¬ inRanges ((lo, hi) :: st) (hi + 1) := by
  have hhead := inv.rsub (lo, hi) (List.mem_cons_self _ _)
  rintro ⟨r, hr, h1, h2⟩
  rcases List.mem_cons.mp hr with rfl | hmem
  · simp only [] at h1 h2
    omega
  · have hgap := (List.pairwise_cons.mp inv.rgap).1 r hmem
    have hsub := inv.rsub r (List.mem_cons_of_mem _ hmem)
    simp only [] at hhead
    rcases hgap with h | h <;> simp only [] at h1 h2 h <;> omega

/-- A stack range is disjoint from (and not adjacent to) the head range, so
its contents and both its neighbour elements are untouched by processing the
head. -/
theorem stack_range_detached {cmp : α → α → Int} {f l lo hi : Int} {a : Int → α}
    {st : List (Int × Int)} (inv : QSortInv cmp f l a ((lo, hi) :: st))
    {r : Int × Int} (hmem : r ∈ st) :
    ∀ k, r.1 - 1 ≤ k → k ≤ r.2 + 1 → k < lo ∨ hi < k := by
  intro k h1 h2
  have hgap := (List.pairwise_cons.mp inv.rgap).1 r hmem
  have hsub := inv.rsub r (List.mem_cons_of_mem _ hmem)
  rcases hgap with h | h <;> simp only [] at h <;> omega

theorem qSortInv_sel {cmp : α → α → Int} (hc : Consistent cmp) {f l lo hi : Int}
    {a : Int → α} {st : List (Int × Int)}
    (inv : QSortInv cmp f l a ((lo, hi) :: st)) :
    QSortInv cmp f l (selSort cmp a lo hi) st := by
  obtain ⟨hflo, hlohi, hhil⟩ := inv.rsub (lo, hi) (List.mem_cons_self _ _)
  have hperm : PermWithin lo hi a (selSort cmp a lo hi) :=
    selSortGo_permWithin cmp lo (le_refl lo) _ a hi rfl (le_refl hi)
  have hframe : ∀ k, k < lo ∨ hi < k → selSort cmp a lo hi k = a k := hperm.1
  have hmset : winMset (selSort cmp a lo hi) lo hi = winMset a lo hi := hperm.2
  have hsorted := selSort_sorted hc a lo hi
  refine ⟨fun r hr => inv.rsub r (List.mem_cons_of_mem _ hr),
    (List.pairwise_cons.mp inv.rgap).2, ?_, ?_, ?_⟩
  · -- freePairs
    intro k hk1 hk2 hkf hkf1
    by_cases hA : k + 1 < lo ∨ hi < k
    · rw [hframe k (by omega), hframe (k + 1) (by omega)]
      apply inv.freePairs k hk1 hk2
      · rw [inRanges_cons]
        rintro (⟨h1, h2⟩ | hin)
        · simp only [] at h1 h2; omega
        · exact hkf hin
      · rw [inRanges_cons]
        rintro (⟨h1, h2⟩ | hin)
        · simp only [] at h1 h2; omega
        · exact hkf1 hin
    · push_neg at hA
      by_cases hB : k + 1 = lo
      · -- left boundary pair (lo - 1, lo)
        have hk' : k = lo - 1 := by omega
        subst hk'
        have hstep : lo - 1 + 1 = lo := by omega
        rw [hstep, hframe (lo - 1) (Or.inl (by omega))]
        have hmem : selSort cmp a lo hi lo ∈ winMset a lo hi := by
          rw [← hmset]
          exact apply_mem_winMset (le_refl lo) hlohi
        exact inv.bndL (lo, hi) (List.mem_cons_self _ _) (by omega) _ hmem
      · by_cases hC : k = hi
        · -- right boundary pair (hi, hi + 1)
          rw [hC, hframe (hi + 1) (Or.inr (by omega))]
          have hmem : selSort cmp a lo hi hi ∈ winMset a lo hi := by
            rw [← hmset]
            exact apply_mem_winMset hlohi (le_refl hi)
          exact inv.bndR (lo, hi) (List.mem_cons_self _ _) (by omega) _ hmem
        · -- interior pair of the processed range
          exact hsorted (k + 1) (by omega) (by omega) k (by omega) (by omega)
  · -- bndL of remaining stack ranges
    intro r hr hfr x hx
    have hdet := stack_range_detached inv hr
    have hsub := inv.rsub r (List.mem_cons_of_mem _ hr)
    have hmr : winMset (selSort cmp a lo hi) r.1 r.2 = winMset a r.1 r.2 :=
      winMset_congr (fun t ht1 ht2 => hframe t (hdet t (by omega) (by omega)))
    rw [hmr] at hx
    rw [hframe (r.1 - 1) (hdet (r.1 - 1) (le_refl _) (by omega))]
    exact inv.bndL r (List.mem_cons_of_mem _ hr) hfr x hx
  · -- bndR of remaining stack ranges
    intro r hr hrl x hx
    have hdet := stack_range_detached inv hr
    have hsub := inv.rsub r (List.mem_cons_of_mem _ hr)
    have hmr : winMset (selSort cmp a lo hi) r.1 r.2 = winMset a r.1 r.2 :=
      winMset_congr (fun t ht1 ht2 => hframe t (hdet t (by omega) (by omega)))
    rw [hmr] at hx
    rw [hframe (r.2 + 1) (hdet (r.2 + 1) (by omega) (le_refl _))]
    exact inv.bndR r (List.mem_cons_of_mem _ hr) hrl x hx

theorem qSortInv_part {cmp : α → α → Int} (hc : Consistent cmp) {f l lo hi : Int}
    {a : Int → α} {st : List (Int × Int)}
    (inv : QSortInv cmp f l a ((lo, hi) :: st))
    {a2 : Int → α} {i1 j1 : Int}
    (hps : partitionStep cmp a lo hi = (a2, i1, j1)) :
    QSortInv cmp f l a2
      ((if lo + 1 < j1 then [(lo, j1 - 1)] else []) ++
       (if i1 < hi then [(i1, hi)] else []) ++ st) := by
  obtain ⟨hflo, hlohi, hhil⟩ := inv.rsub (lo, hi) (List.mem_cons_self _ _)
  obtain ⟨w1, w2, w3, w4, w5, hQ3, hQ4, hQ5⟩ :=
    partitionStep_spec cmp a lo hi hlohi a2 i1 j1 hps
  have hQ4' : ∀ k, j1 < k → k ≤ hi → cmp (a2 j1) (a2 k) ≤ 0 :=
    fun k h1 h2 => hc.flip_nonpos (hQ4 k h1 h2)
  have hj1hi : j1 ≤ hi := by omega
  have hgapSt := (List.pairwise_cons.mp inv.rgap).1
  have hmem_iff : ∀ r : Int × Int,
      r ∈ ((if lo + 1 < j1 then [(lo, j1 - 1)] else []) ++
        (if i1 < hi then [(i1, hi)] else []) ++ st) ↔
      ((lo + 1 < j1 ∧ r = (lo, j1 - 1)) ∨ (i1 < hi ∧ r = (i1, hi)) ∨ r ∈ st) := by
    intro r
    split_ifs with h1 h2 <;> simp [List.mem_append] <;> tauto
  have hin_iff : ∀ k : Int,
      inRanges ((if lo + 1 < j1 then [(lo, j1 - 1)] else []) ++
        (if i1 < hi then [(i1, hi)] else []) ++ st) k ↔
      ((lo + 1 < j1 ∧ lo ≤ k ∧ k ≤ j1 - 1) ∨ (i1 < hi ∧ i1 ≤ k ∧ k ≤ hi) ∨
        inRanges st k) := by
    intro k
    constructor
    · rintro ⟨r, hr, hr1, hr2⟩
      rcases (hmem_iff r).mp hr with ⟨hcnd, rfl⟩ | ⟨hcnd, rfl⟩ | hmem
      · exact Or.inl ⟨hcnd, hr1, hr2⟩
      · exact Or.inr (Or.inl ⟨hcnd, hr1, hr2⟩)
      · exact Or.inr (Or.inr ⟨r, hmem, hr1, hr2⟩)
    · rintro (⟨hcnd, hr1, hr2⟩ | ⟨hcnd, hr1, hr2⟩ | ⟨r, hmem, hr1, hr2⟩)
      · exact ⟨(lo, j1 - 1), (hmem_iff _).mpr (Or.inl ⟨hcnd, rfl⟩), hr1, hr2⟩
      · exact ⟨(i1, hi), (hmem_iff _).mpr (Or.inr (Or.inl ⟨hcnd, rfl⟩)), hr1, hr2⟩
      · exact ⟨r, (hmem_iff _).mpr (Or.inr (Or.inr hmem)), hr1, hr2⟩
  refine ⟨?_, ?_, ?_, ?_, ?_⟩
  · -- rsub
    intro r hr
    rcases (hmem_iff r).mp hr with ⟨hcnd, rfl⟩ | ⟨hcnd, rfl⟩ | hmem
    · exact ⟨hflo, by omega, by omega⟩
    · exact ⟨by omega, by omega, hhil⟩
    · exact inv.rsub r (List.mem_cons_of_mem _ hmem)
  · -- rgap
    rw [List.pairwise_append, List.pairwise_append]
    refine ⟨⟨?_, ?_, ?_⟩, (List.pairwise_cons.mp inv.rgap).2, ?_⟩
    · split <;> simp
    · split <;> simp
    · intro x hx y hy
      have hxv : x = (lo, j1 - 1) := by
        split at hx
        · simpa using hx
        · simp at hx
      have hyv : y = (i1, hi) := by
        split at hy
        · simpa using hy
        · simp at hy
      subst hxv
      subst hyv
      exact Or.inl (by simp only []; omega)
    · intro x hx y hySt
      rcases List.mem_append.mp hx with hxA | hxB
      · have hxv : x = (lo, j1 - 1) := by
          split at hxA
          · simpa using hxA
          · simp at hxA
        subst hxv
        rcases hgapSt y hySt with h | h
        · exact Or.inl (by simp only [] at h ⊢; omega)
        · exact Or.inr (by simp only [] at h ⊢; omega)
      · have hxv : x = (i1, hi) := by
          split at hxB
          · simpa using hxB
          · simp at hxB
        subst hxv
        rcases hgapSt y hySt with h | h
        · exact Or.inl (by simp only [] at h ⊢; omega)
        · exact Or.inr (by simp only [] at h ⊢; omega)
  · -- freePairs
    intro k hk1 hk2 hfk hfk1
    rw [hin_iff] at hfk hfk1
    push_neg at hfk hfk1
    by_cases hA : k + 1 < lo ∨ hi < k
    · rw [w1 k (by omega), w1 (k + 1) (by omega)]
      apply inv.freePairs k hk1 hk2
      · rw [inRanges_cons]
        rintro (⟨h1, h2⟩ | hin)
        · simp only [] at h1 h2; omega
        · exact hfk.2.2 hin
      · rw [inRanges_cons]
        rintro (⟨h1, h2⟩ | hin)
        · simp only [] at h1 h2; omega
        · exact hfk1.2.2 hin
    · push_neg at hA
      by_cases hB : k + 1 = lo
      · -- left boundary pair (lo - 1, lo)
        have hk' : k = lo - 1 := by omega
        rw [hk', show lo - 1 + 1 = lo by omega, w1 (lo - 1) (by omega)]
        have hmem : a2 lo ∈ winMset a lo hi := by
          rw [← w2]
          exact apply_mem_winMset (le_refl lo) hlohi
        exact inv.bndL (lo, hi) (List.mem_cons_self _ _) (by omega) _ hmem
      · by_cases hC : k = hi
        · -- right boundary pair (hi, hi + 1)
          rw [hC, w1 (hi + 1) (by omega)]
          have hmem : a2 hi ∈ winMset a lo hi := by
            rw [← w2]
            exact apply_mem_winMset hlohi (le_refl hi)
          exact inv.bndR (lo, hi) (List.mem_cons_self _ _) (by omega) _ hmem
        · -- pair inside the processed range
          have hklo : lo ≤ k := by omega
          have hk1hi : k + 1 ≤ hi := by omega
          have hk1j : j1 ≤ k + 1 := by
            by_cases hL : lo + 1 < j1
            · have := hfk1.1 hL (by omega)
              omega
            · omega
          rcases eq_or_lt_of_le hk1j with hD2 | hD3
          · -- k + 1 = j1 : the pair ends at the pivot
            exact hD2 ▸ hQ3 k hklo (by omega)
          · rcases eq_or_lt_of_le (show j1 ≤ k by omega) with hE | hE
            · -- k = j1
              have h := hQ4' (k + 1) (by omega) hk1hi
              rw [hE] at h
              exact h
            · -- j1 < k : k is inside the equal-to-pivot gap, so k < i1
              have hki1 : k < i1 := by
                by_contra hcon
                push_neg at hcon
                by_cases hS : i1 < hi
                · have := hfk.2.1 hS (by omega)
                  omega
                · omega
              exact hc.trans_nonpos (hQ5 k hE hki1) (hQ4' (k + 1) (by omega) hk1hi)
  · -- bndL
    intro r hr hfr x hx
    rcases (hmem_iff r).mp hr with ⟨hcnd, rfl⟩ | ⟨hcnd, rfl⟩ | hmem
    · -- new left range (lo, j1 - 1)
      have hfr' : f < lo := hfr
      have hx' : x ∈ winMset a2 lo (j1 - 1) := hx
      have hxw : x ∈ winMset a lo hi := by
        rw [← w2]
        exact Multiset.mem_of_le (winMset_mono (le_refl lo) (by omega)) hx'
      show cmp (a2 (lo - 1)) x ≤ 0
      rw [w1 (lo - 1) (by omega)]
      exact inv.bndL (lo, hi) (List.mem_cons_self _ _) hfr' x hxw
    · -- new right range (i1, hi)
      have hx' : x ∈ winMset a2 i1 hi := hx
      obtain ⟨t, ht1, ht2, rfl⟩ := mem_winMset.mp hx'
      show cmp (a2 (i1 - 1)) (a2 t) ≤ 0
      have hQt : cmp (a2 j1) (a2 t) ≤ 0 := hQ4' t (by omega) ht2
      rcases eq_or_lt_of_le (show j1 ≤ i1 - 1 by omega) with he | he
      · rw [← he]
        exact hQt
      · exact hc.trans_nonpos (hQ5 (i1 - 1) (by omega) (by omega)) hQt
    · -- stack ranges untouched
      have hdet := stack_range_detached inv hmem
      have hsub := inv.rsub r (List.mem_cons_of_mem _ hmem)
      have hmr : winMset a2 r.1 r.2 = winMset a r.1 r.2 :=
        winMset_congr (fun t ht1 ht2 => w1 t (hdet t (by omega) (by omega)))
      rw [hmr] at hx
      rw [w1 (r.1 - 1) (hdet (r.1 - 1) (le_refl _) (by omega))]
      exact inv.bndL r (List.mem_cons_of_mem _ hmem) hfr x hx
  · -- bndR
    intro r hr hrl x hx
    rcases (hmem_iff r).mp hr with ⟨hcnd, rfl⟩ | ⟨hcnd, rfl⟩ | hmem
    · -- new left range: its right neighbour is the pivot at j1
      have hx' : x ∈ winMset a2 lo (j1 - 1) := hx
      obtain ⟨t, ht1, ht2, rfl⟩ := mem_winMset.mp hx'
      show cmp (a2 t) (a2 (j1 - 1 + 1)) ≤ 0
      rw [show j1 - 1 + 1 = j1 by omega]
      exact hQ3 t ht1 (by omega)
    · -- new right range: its right neighbour is the old one
      have hrl' : hi < l := hrl
      have hx' : x ∈ winMset a2 i1 hi := hx
      have hxw : x ∈ winMset a lo hi := by
        rw [← w2]
        exact Multiset.mem_of_le (winMset_mono (by omega) (le_refl hi)) hx'
      show cmp x (a2 (hi + 1)) ≤ 0
      rw [w1 (hi + 1) (by omega)]
      exact inv.bndR (lo, hi) (List.mem_cons_self _ _) hrl' x hxw
    · -- stack ranges untouched
      have hdet := stack_range_detached inv hmem
      have hsub := inv.rsub r (List.mem_cons_of_mem _ hmem)
      have hmr : winMset a2 r.1 r.2 = winMset a r.1 r.2 :=
        winMset_congr (fun t ht1 ht2 => w1 t (hdet t (by omega) (by omega)))
      rw [hmr] at hx
      rw [w1 (r.2 + 1) (hdet (r.2 + 1) (by omega) (le_refl _))]
      exact inv.bndR r (List.mem_cons_of_mem _ hmem) hrl x hx

theorem qPop_inv {cmp : α → α → Int} {f l : Int} {x : Int → α}
    {st2 : List (Int × Int)} (hinv : QSortInv cmp f l x st2) :
    (∀ a', qPop x st2 = Sum.inl a' → QSortInv cmp f l a' []) ∧
    (∀ s', qPop x st2 = Sum.inr s' →
      QSortInv cmp f l s'.arr ((s'.lo, s'.hi) :: s'.stack)) := by
  cases st2 with
  | nil =>
    refine ⟨fun a' ha' => ?_, fun s' hs' => by simp [qPop] at hs'⟩
    simp only [qPop] at ha'
    have := Sum.inl.inj ha'
    subst this
    exact hinv
  | cons t rest =>
    refine ⟨fun a' ha' => by simp [qPop] at ha', fun s' hs' => ?_⟩
    simp only [qPop] at hs'
    have := Sum.inr.inj hs'
    subst this
    exact hinv

theorem qIter_inv {cmp : α → α → Int} (hc : Consistent cmp) {f l : Int}
    (s : QState α) (inv : QSortInv cmp f l s.arr ((s.lo, s.hi) :: s.stack)) :
    (∀ a', qIter cmp s = Sum.inl a' → QSortInv cmp f l a' []) ∧
    (∀ s', qIter cmp s = Sum.inr s' →
      QSortInv cmp f l s'.arr ((s'.lo, s'.hi) :: s'.stack)) := by
  rw [qIter]
  split
  · exact qPop_inv (qSortInv_sel hc inv)
  · rename_i hsize
    obtain ⟨a2, i1, j1, hps⟩ : ∃ a2 i1 j1,
        partitionStep cmp s.arr s.lo s.hi = (a2, i1, j1) := ⟨_, _, _, rfl⟩
    have hinv2 := qSortInv_part hc inv hps
    rw [hps]
    show (∀ a', afterPartition a2 s.lo s.hi i1 j1 s.stack = Sum.inl a' → _) ∧
      (∀ s', afterPartition a2 s.lo s.hi i1 j1 s.stack = Sum.inr s' → _)
    simp only [afterPartition]
    split
    · -- push-left branch
      split
      · -- continue with (i1, s.hi)
        rename_i hih
        refine ⟨fun a' ha' => by simp at ha', fun s' hs' => ?_⟩
        have := Sum.inr.inj hs'
        subst this
        by_cases hLc : s.lo + 1 < j1
        · rw [if_pos hLc]
          rw [if_pos hLc, if_pos hih] at hinv2
          simp only [List.singleton_append, List.cons_append, List.nil_append] at hinv2
          exact hinv2.perm (List.Perm.swap _ _ _)
        · rw [if_neg hLc]
          rw [if_neg hLc, if_pos hih] at hinv2
          simp only [List.nil_append, List.singleton_append] at hinv2
          exact hinv2
      · -- pop
        rename_i hih
        rw [if_neg hih, List.append_nil] at hinv2
        have hinv3 : QSortInv cmp f l a2
            (if s.lo + 1 < j1 then (s.lo, j1 - 1) :: s.stack else s.stack) := by
          by_cases hLc : s.lo + 1 < j1
          · rw [if_pos hLc]
            rw [if_pos hLc] at hinv2
            simpa using hinv2
          · rw [if_neg hLc]
            rw [if_neg hLc] at hinv2
            simpa using hinv2
        exact qPop_inv hinv3
    · -- push-right branch
      split
      · -- continue with (s.lo, j1 - 1)
        rename_i hLc
        refine ⟨fun a' ha' => by simp at ha', fun s' hs' => ?_⟩
        have := Sum.inr.inj hs'
        subst this
        rw [if_pos hLc] at hinv2
        by_cases hih : i1 < s.hi
        · rw [if_pos hih]
          rw [if_pos hih] at hinv2
          simpa using hinv2
        · rw [if_neg hih]
          rw [if_neg hih] at hinv2
          simpa using hinv2
      · -- pop
        rename_i hLc
        rw [if_neg hLc, List.nil_append] at hinv2
        have hinv3 : QSortInv cmp f l a2
            (if i1 < s.hi then (i1, s.hi) :: s.stack else s.stack) := by
          by_cases hih : i1 < s.hi
          · rw [if_pos hih]
            rw [if_pos hih] at hinv2
            simpa using hinv2
          · rw [if_neg hih]
            rw [if_neg hih] at hinv2
            simpa using hinv2
        exact qPop_inv hinv3

theorem qLoop_sorted {cmp : α → α → Int} (hc : Consistent cmp) {f l : Int} :
    ∀ (fuel : Nat) (s : QState α) (out : Int → α),
      QSortInv cmp f l s.arr ((s.lo, s.hi) :: s.stack) →
      qLoop cmp fuel s = some out →
      ∀ k, f ≤ k → k + 1 ≤ l → cmp (out k) (out (k + 1)) ≤ 0 := by
  intro fuel
  induction fuel with
  | zero => intro s out _ h; simp [qLoop] at h
  | succ fuel ih =>
    intro s out inv h
    rw [qLoop] at h
    obtain ⟨hinl, hinr⟩ := qIter_inv hc s inv
    cases hq : qIter cmp s with
    | inl a' =>
      rw [hq] at h
      obtain rfl : a' = out := by
        cases h
        rfl
      have hfin := hinl _ hq
      intro k h1 h2
      apply hfin.freePairs k h1 h2 <;>
        · rintro ⟨r, hr, _⟩
          simp at hr
    | inr s' =>
      rw [hq] at h
      exact ih s' out (hinr s' hq) h

theorem retainOrderLoop_sorted {cmp : α → α → Int} (hc : Consistent cmp) {f l : Int} :
    ∀ (fuel : Nat) (a : Int → α) (i : Int) (out : Int → α), f ≤ i →
      (∀ k, f ≤ k → k + 1 ≤ i → cmp (a k) (a (k + 1)) ≤ 0) →
      retainOrderLoop cmp fuel a f l i = some out →
      ∀ k, f ≤ k → k + 1 ≤ l → cmp (out k) (out (k + 1)) ≤ 0 := by
  intro fuel
  induction fuel with
  | zero => intro a i out _ _ h; simp [retainOrderLoop] at h
  | succ fuel ih =>
    intro a i out hfi hInv h
    rw [retainOrderLoop] at h
    split at h
    · rename_i hil
      split at h
      · rename_i hcmp
        apply ih _ _ out ?_ ?_ h
        · split <;> omega
        · by_cases hfi' : f < i
          · rw [if_pos hfi']
            intro k h1 h2
            rw [swapF_apply_of_ne a i (i + 1) k (by omega) (by omega),
              swapF_apply_of_ne a i (i + 1) (k + 1) (by omega) (by omega)]
            exact hInv k h1 (by omega)
          · rw [if_neg hfi']
            have hieq : i = f := by omega
            intro k h1 h2
            have hkeq : k = i := by omega
            subst hkeq
            rw [swapF_apply_left, swapF_apply_right]
            have := hc.pos_flip hcmp
            omega
      · rename_i hcmp
        apply ih _ _ out (by omega) ?_ h
        intro k h1 h2
        rcases eq_or_lt_of_le h2 with he | he
        · have hkeq : k = i := by omega
          subst hkeq
          omega
        · exact hInv k h1 (by omega)
    · rename_i hil
      obtain rfl : a = out := by
        cases h
        rfl
      intro k h1 h2
      exact hInv k h1 (by omega)

/-- Master sortedness lemma for `sortArray`: for a consistent comparator, a
completed run leaves every adjacent pair of the window in non-decreasing
comparator order. -/
theorem sortArray_sorted {cmp : α → α → Int} (hc : Consistent cmp)
    (fuel : Nat) (a : Int → α) (f l : Int) (mode : Bool) (out : Int → α)
    (h : sortArray cmp fuel a f l mode = some out) :
    ∀ k, f ≤ k → k + 1 ≤ l → cmp (out k) (out (k + 1)) ≤ 0 := by
  rw [sortArray] at h
  split at h
  · rename_i hfl
    split at h
    · exact retainOrderLoop_sorted hc fuel a f out (le_refl f)
        (fun k h1 h2 => by omega) h
    · apply qLoop_sorted hc fuel _ out ?_ h
      show QSortInv cmp f l a [(f, l)]
      refine ⟨?_, ?_, ?_, ?_, ?_⟩
      · intro r hr
        rw [List.mem_singleton] at hr
        subst hr
        exact ⟨le_refl f, by omega, le_refl l⟩
      · exact List.pairwise_singleton _ _
      · intro k h1 h2 h3 _
        exact absurd ⟨(f, l), List.mem_singleton_self _, h1, by omega⟩ h3
      · intro r hr hfr
        rw [List.mem_singleton] at hr
        subst hr
        exact absurd hfr (by omega)
      · intro r hr hrl
        rw [List.mem_singleton] at hr
        subst hr
        exact absurd hrl (by omega)
  · rename_i hfl
    obtain rfl : a = out := by
      cases h
      rfl
    intro k h1 h2
    omega

/-! ### Stability of the retain-order mode -/

theorem swapIdx_bijective (p q : Int) : Function.Bijective (swapIdx p q) :=
  Function.Involutive.bijective (swapIdx_invol p q)

theorem swapF_bijective {p : Int → Int} (hb : Function.Bijective p) (u v : Int) :
    Function.Bijective (swapF p u v) := by
  rw [swapF_eq_comp]
  exact Function.Bijective.comp hb (swapIdx_bijective u v)

/-- Simulation: running the retain-order loop on the composed array
`a ∘ p` is the same as running it on the index array `p` with the comparator
pulled back along `a`, then composing with `a`. -/
theorem retainOrderLoop_sim (cmp : α → α → Int) (a : Int → α) (f l : Int) :
    ∀ (fuel : Nat) (p : Int → Int) (i : Int),
      retainOrderLoop cmp fuel (fun k => a (p k)) f l i =
        Option.map (fun q => fun k => a (q k))
          (retainOrderLoop (fun u v => cmp (a u) (a v)) fuel p f l i) := by
  intro fuel
  induction fuel with
  | zero => intro p i; rfl
  | succ fuel ih =>
    intro p i
    rw [retainOrderLoop, retainOrderLoop]
    split
    · split
      · have hsw : swapF (fun k => a (p k)) i (i + 1) =
            fun k => a (swapF p i (i + 1) k) := by
          funext k
          simp only [swapF]
          split_ifs <;> rfl
        rw [hsw]
        exact ih (swapF p i (i + 1)) _
      · exact ih p (i + 1)
    · rfl

theorem retainOrderLoop_stab {cmp : α → α → Int} (hc : Consistent cmp)
    (a : Int → α) (f l : Int) :
    ∀ (fuel : Nat) (p : Int → Int) (i : Int) (q : Int → Int),
      f ≤ i →
      Function.Bijective p →
      (∀ k, k < f ∨ l < k → p k = k) →
      (∀ u v, f ≤ u → u < v → v ≤ l → cmp (a (p u)) (a (p v)) = 0 → p u < p v) →
      retainOrderLoop (fun u v => cmp (a u) (a v)) fuel p f l i = some q →
      Function.Bijective q ∧ (∀ k, k < f ∨ l < k → q k = k) ∧
      (∀ u v, f ≤ u → u < v → v ≤ l → cmp (a (q u)) (a (q v)) = 0 → q u < q v) := by
  intro fuel
  induction fuel with
  | zero => intro p i q _ _ _ _ h; simp [retainOrderLoop] at h
  | succ fuel ih =>
    intro p i q hfi hbij hout hstab h
    rw [retainOrderLoop] at h
    split at h
    · rename_i hil
      split at h
      · rename_i hcmp
        apply ih (swapF p i (i + 1)) _ q (by split <;> omega) ?_ ?_ ?_ h
        · exact swapF_bijective hbij i (i + 1)
        · intro k hk
          rw [swapF_apply_of_ne p i (i + 1) k (by omega) (by omega)]
          exact hout k hk
        · intro u v hu huv hv h0
          by_cases hui : u = i
          · subst hui
            rcases eq_or_lt_of_le (show u + 1 ≤ v by omega) with hv1 | hv1
            · rw [← hv1] at h0 ⊢
              rw [swapF_apply_left, swapF_apply_right] at h0 ⊢
              have := hc.zero_symm h0
              omega
            · rw [swapF_apply_left, swapF_apply_of_ne p u (u + 1) v (by omega) (by omega)] at h0 ⊢
              exact hstab (u + 1) v (by omega) hv1 hv h0
          · by_cases hui1 : u = i + 1
            · subst hui1
              rw [swapF_apply_right, swapF_apply_of_ne p i (i + 1) v (by omega) (by omega)] at h0 ⊢
              exact hstab i v (by omega) (by omega) hv h0
            · rw [swapF_apply_of_ne p i (i + 1) u hui hui1] at h0 ⊢
              by_cases hvi : v = i
              · subst hvi
                rw [swapF_apply_left] at h0 ⊢
                exact hstab u (v + 1) hu (by omega) (by omega) h0
              · by_cases hvi1 : v = i + 1
                · subst hvi1
                  rw [swapF_apply_right] at h0 ⊢
                  exact hstab u i hu (by omega) (by omega) h0
                · rw [swapF_apply_of_ne p i (i + 1) v hvi hvi1] at h0 ⊢
                  exact hstab u v hu huv hv h0
      · exact ih p (i + 1) q (by omega) hbij hout hstab h
    · obtain rfl : p = q := by
        cases h
        rfl
      exact ⟨hbij, hout, hstab⟩

/-- Master stability lemma: a completed retain-order run factors as `a ∘ p`
for a permutation `p` of the window that is strictly monotone on each class of
comparator-equal elements — equivalent elements keep their input order. -/
theorem sortArray_stable {cmp : α → α → Int} (hc : Consistent cmp)
    (fuel : Nat) (a : Int → α) (f l : Int) (out : Int → α)
    (h : sortArray cmp fuel a f l true = some out) :
    ∃ p : Int → Int, Function.Bijective p ∧ (∀ k, k < f ∨ l < k → p k = k) ∧
      (∀ k, out k = a (p k)) ∧
      (∀ u v, f ≤ u → u < v → v ≤ l → cmp (a (p u)) (a (p v)) = 0 → p u < p v) := by
  rw [sortArray] at h
  split at h
  · rename_i hfl
    rw [if_pos rfl] at h
    have h2 : Option.map (fun q => fun k => a (q k))
        (retainOrderLoop (fun u v => cmp (a u) (a v)) fuel id f l f) = some out := by
      rw [← retainOrderLoop_sim cmp a f l fuel id f]
      exact h
    cases ho : retainOrderLoop (fun u v => cmp (a u) (a v)) fuel id f l f with
    | none => rw [ho] at h2; simp at h2
    | some q =>
      rw [ho] at h2
      simp only [Option.map_some'] at h2
      have hout : out = fun k => a (q k) := (Option.some.inj h2).symm
      obtain ⟨hb, ho2, hs⟩ := retainOrderLoop_stab hc a f l fuel id f q (le_refl f)
        Function.bijective_id (fun k _ => rfl)
        (fun u v _ huv _ _ => huv) ho
      exact ⟨q, hb, ho2, fun k => by rw [hout], hs⟩
  · obtain rfl : a = out := by
      cases h
      rfl
    refine ⟨id, Function.bijective_id, fun k _ => rfl, fun k => rfl,
      fun u v _ huv _ _ => huv⟩

/-- A permutation of the whole line that fixes everything outside the window
maps the window onto itself. -/
theorem perm_window_maps {f l : Int} {p : Int → Int}
    (hb : Function.Bijective p) (hout : ∀ k, k < f ∨ l < k → p k = k) :
    ∀ k, f ≤ k → k ≤ l → f ≤ p k ∧ p k ≤ l := by
  intro k hk1 hk2
  by_contra hcon
  have houtk : p k < f ∨ l < p k := by omega
  have h1 : p (p k) = p k := hout (p k) houtk
  have h2 : p k = k := hb.1 h1
  omega

/-! ### Termination -/

theorem swapF_apply_idx (a : Int → α) (p q k : Int) :
    swapF a p q k = a (swapIdx p q k) :=
  congrFun (swapF_eq_comp a p q) k


theorem invCnt_swap_lt {cmp : α → α → Int} (hc : Consistent cmp) (a : Int → α)
    {f l i : Int} (hif : f ≤ i) (hil : i + 1 ≤ l)
    (hcmp : 0 < cmp (a i) (a (i + 1))) :
    invCnt cmp (swapF a i (i + 1)) f l < invCnt cmp a f l := by
  classical
  set σ := swapIdx i (i + 1) with hσ
  have hσIcc : ∀ k : Int, k ∈ Finset.Icc f l → σ k ∈ Finset.Icc f l := by
    intro k hk
    rw [Finset.mem_Icc] at hk ⊢
    simp only [hσ, swapIdx]
    split_ifs <;> omega
  have hσinv : ∀ k, σ (σ k) = k := swapIdx_invol i (i + 1)
  set Sa := ((Finset.Icc f l ×ˢ Finset.Icc f l).filter
    (fun pq => pq.1 < pq.2 ∧ 0 < cmp (a pq.1) (a pq.2))) with hSa
  set Sb := ((Finset.Icc f l ×ˢ Finset.Icc f l).filter
    (fun pq => pq.1 < pq.2 ∧ 0 < cmp (swapF a i (i + 1) pq.1) (swapF a i (i + 1) pq.2))) with hSb
  have hmemSa : (i, i + 1) ∈ Sa := by
    rw [hSa, Finset.mem_filter, Finset.mem_product, Finset.mem_Icc, Finset.mem_Icc]
    exact ⟨⟨⟨by omega, by omega⟩, ⟨by omega, by omega⟩⟩, by omega, hcmp⟩
  have hmap : ∀ x ∈ Sb, (σ x.1, σ x.2) ∈ Sa.erase (i, i + 1) := by
    intro x hx
    rw [hSb, Finset.mem_filter, Finset.mem_product] at hx
    obtain ⟨⟨hx1, hx2⟩, hord, hpos⟩ := hx
    rw [swapF_apply_idx, swapF_apply_idx] at hpos
    have hne : ¬ (x.1 = i ∧ x.2 = i + 1) := by
      rintro ⟨h1, h2⟩
      rw [h1, h2] at hpos
      have e1 : swapIdx i (i + 1) i = i + 1 := by simp [swapIdx]
      have e2 : swapIdx i (i + 1) (i + 1) = i := by
        simp only [swapIdx]
        split_ifs <;> omega
      rw [e1, e2] at hpos
      have := hc.pos_flip hcmp
      omega
    have hordσ : σ x.1 < σ x.2 := by
      simp only [hσ, swapIdx]
      split_ifs <;> omega
    rw [Finset.mem_erase]
    constructor
    · intro hcon
      have h1 : σ x.1 = i := congrArg Prod.fst hcon
      have h2 : σ x.2 = i + 1 := congrArg Prod.snd hcon
      have e1 : x.1 = σ i := by rw [← h1, hσinv]
      have e2 : x.2 = σ (i + 1) := by rw [← h2, hσinv]
      have e3 : σ i = i + 1 := by simp [hσ, swapIdx]
      have e4 : σ (i + 1) = i := by
        simp only [hσ, swapIdx]
        split_ifs <;> omega
      rw [e3] at e1
      rw [e4] at e2
      omega
    · rw [hSa, Finset.mem_filter, Finset.mem_product]
      exact ⟨⟨hσIcc x.1 hx1, hσIcc x.2 hx2⟩, hordσ, hpos⟩
  have hinj : Set.InjOn (fun x : Int × Int => (σ x.1, σ x.2)) Sb := by
    intro x _ y _ hxy
    have h1 : σ x.1 = σ y.1 := congrArg Prod.fst hxy
    have h2 : σ x.2 = σ y.2 := congrArg Prod.snd hxy
    have e1 : x.1 = y.1 := by rw [← hσinv x.1, h1, hσinv]
    have e2 : x.2 = y.2 := by rw [← hσinv x.2, h2, hσinv]
    exact Prod.ext e1 e2
  have hle : Sb.card ≤ (Sa.erase (i, i + 1)).card :=
    Finset.card_le_card_of_injOn _ hmap hinj
  have herase : (Sa.erase (i, i + 1)).card = Sa.card - 1 :=
    Finset.card_erase_of_mem hmemSa
  have hpos : 0 < Sa.card := Finset.card_pos.mpr ⟨_, hmemSa⟩
  show Sb.card < Sa.card
  omega

theorem retainOrderLoop_term_aux {cmp : α → α → Int} (hc : Consistent cmp)
    (f l : Int) :
    ∀ (N : Nat) (a : Int → α) (i : Int), f ≤ i →
      invCnt cmp a f l * ((l - f).toNat + 1) + (l - i).toNat ≤ N →
      ∃ fuel out, retainOrderLoop cmp fuel a f l i = some out := by
  intro N
  induction N using Nat.strong_induction_on with
  | _ N ih =>
    intro a i hfi hM
    by_cases hil : i < l
    · by_cases hcmp : 0 < cmp (a i) (a (i + 1))
      · set i' := if f < i then i - 1 else i + 1 with hi'
        have hfi' : f ≤ i' := by rw [hi']; split <;> omega
        have hlt : invCnt cmp (swapF a i (i + 1)) f l < invCnt cmp a f l :=
          invCnt_swap_lt hc a hfi (by omega) hcmp
        set W := (l - f).toNat + 1 with hW
        have h1 : invCnt cmp (swapF a i (i + 1)) f l * W ≤
            (invCnt cmp a f l - 1) * W := Nat.mul_le_mul_right W (by omega)
        have h2 : (invCnt cmp a f l - 1) * W = invCnt cmp a f l * W - W := by
          rw [Nat.sub_mul, one_mul]
        have h3 : W ≤ invCnt cmp a f l * W := Nat.le_mul_of_pos_left W (by omega)
        have h4 : (l - i').toNat ≤ W - 1 := by rw [hW]; omega
        have hM' : invCnt cmp (swapF a i (i + 1)) f l * W + (l - i').toNat ≤ N - 1 := by
          omega
        obtain ⟨fuel, out, hout⟩ := ih (N - 1) (by omega) (swapF a i (i + 1)) i' hfi' hM'
        refine ⟨fuel + 1, out, ?_⟩
        rw [retainOrderLoop, if_pos hil, if_pos hcmp]
        exact hout
      · have hM' : invCnt cmp a f l * ((l - f).toNat + 1) + (l - (i + 1)).toNat ≤ N - 1 := by
          omega
        obtain ⟨fuel, out, hout⟩ := ih (N - 1) (by omega) a (i + 1) (by omega) hM'
        refine ⟨fuel + 1, out, ?_⟩
        rw [retainOrderLoop, if_pos hil, if_neg hcmp]
        exact hout
    · refine ⟨1, a, ?_⟩
      rw [retainOrderLoop, if_neg hil]

/-- The retain-order loop terminates for every consistent comparator. -/
theorem retainOrderLoop_term {cmp : α → α → Int} (hc : Consistent cmp)
    (a : Int → α) (f l : Int) :
    ∃ fuel out, retainOrderLoop cmp fuel a f l f = some out :=
  retainOrderLoop_term_aux hc f l
    (invCnt cmp a f l * ((l - f).toNat + 1) + (l - f).toNat) a f (le_refl f)
    (le_refl _)



theorem qPop_inr {x : Int → α} {st2 : List (Int × Int)} {s' : QState α}
    (h : qPop x st2 = Sum.inr s') :
    ∃ t1 t2 rest, st2 = (t1, t2) :: rest ∧ s' = ⟨x, t1, t2, rest⟩ := by
  cases st2 with
  | nil => simp [qPop] at h
  | cons t rest =>
    simp only [qPop] at h
    have := Sum.inr.inj h
    subst this
    exact ⟨t.1, t.2, rest, rfl, rfl⟩

theorem qIter_measure_lt (cmp : α → α → Int) (s s' : QState α)
    (h : qIter cmp s = Sum.inr s') : qMeasure s' < qMeasure s := by
  rw [qIter] at h
  split at h
  · -- selection branch: the current range is retired, a stack entry is popped
    obtain ⟨t1, t2, rest, hst, rfl⟩ := qPop_inr h
    simp only [qMeasure, hst, List.map_cons, List.sum_cons, List.length_cons, rangeSize]
    omega
  · rename_i hsize
    obtain ⟨a2, i1, j1, hps⟩ : ∃ a2 i1 j1,
        partitionStep cmp s.arr s.lo s.hi = (a2, i1, j1) := ⟨_, _, _, rfl⟩
    obtain ⟨_, _, w3, w4, w5, _, _, _⟩ :=
      partitionStep_spec cmp s.arr s.lo s.hi (by omega) a2 i1 j1 hps
    rw [hps] at h
    have h2 : afterPartition a2 s.lo s.hi i1 j1 s.stack = Sum.inr s' := h
    simp only [afterPartition] at h2
    split at h2
    · split at h2
      · -- continue with right part, larger left part maybe pushed
        have := Sum.inr.inj h2
        subst this
        by_cases hLc : s.lo + 1 < j1
        · simp only [qMeasure, if_pos hLc, List.map_cons, List.sum_cons,
            List.length_cons, rangeSize]
          omega
        · simp only [qMeasure, if_neg hLc, rangeSize]
          omega
      · -- pop
        by_cases hLc : s.lo + 1 < j1
        · rw [if_pos hLc] at h2
          obtain ⟨t1, t2, rest, hst, rfl⟩ := qPop_inr h2
          rw [List.cons.injEq, Prod.mk.injEq] at hst
          obtain ⟨⟨rfl, rfl⟩, rfl⟩ := hst
          simp only [qMeasure, rangeSize]
          omega
        · rw [if_neg hLc] at h2
          obtain ⟨t1, t2, rest, hst, rfl⟩ := qPop_inr h2
          simp only [qMeasure, hst, List.map_cons, List.sum_cons, List.length_cons,
            rangeSize]
          omega
    · split at h2
      · -- continue with left part, larger right part maybe pushed
        have := Sum.inr.inj h2
        subst this
        by_cases hih : i1 < s.hi
        · simp only [qMeasure, if_pos hih, List.map_cons, List.sum_cons,
            List.length_cons, rangeSize]
          omega
        · simp only [qMeasure, if_neg hih, rangeSize]
          omega
      · -- pop
        by_cases hih : i1 < s.hi
        · rw [if_pos hih] at h2
          obtain ⟨t1, t2, rest, hst, rfl⟩ := qPop_inr h2
          rw [List.cons.injEq, Prod.mk.injEq] at hst
          obtain ⟨⟨rfl, rfl⟩, rfl⟩ := hst
          simp only [qMeasure, rangeSize]
          omega
        · rw [if_neg hih] at h2
          obtain ⟨t1, t2, rest, hst, rfl⟩ := qPop_inr h2
          simp only [qMeasure, hst, List.map_cons, List.sum_cons, List.length_cons,
            rangeSize]
          omega

/-- The non-stable driver terminates for every comparator. -/
theorem qLoop_term (cmp : α → α → Int) :
    ∀ (N : Nat) (s : QState α), qMeasure s ≤ N →
      ∃ fuel out, qLoop cmp fuel s = some out := by
  intro N
  induction N using Nat.strong_induction_on with
  | _ N ih =>
    intro s hM
    cases hq : qIter cmp s with
    | inl a =>
      refine ⟨1, a, ?_⟩
      rw [qLoop, hq]
    | inr s' =>
      have hlt := qIter_measure_lt cmp s s' hq
      obtain ⟨fuel, out, hout⟩ := ih (N - 1) (by omega) s' (by omega)
      refine ⟨fuel + 1, out, ?_⟩
      rw [qLoop, hq]
      exact hout

/-- `sortArray` in non-stable mode terminates for every comparator: some fuel
completes the run. -/
theorem sortArray_term_nonstable (cmp : α → α → Int) (a : Int → α) (f l : Int) :
    ∃ fuel out, sortArray cmp fuel a f l false = some out := by
  by_cases hfl : f < l
  · obtain ⟨fuel, out, h⟩ :=
      qLoop_term cmp (qMeasure ⟨a, f, l, []⟩) ⟨a, f, l, []⟩ (le_refl _)
    refine ⟨fuel, out, ?_⟩
    rw [sortArray, if_pos hfl, if_neg Bool.false_ne_true]
    exact h
  · refine ⟨0, a, ?_⟩
    rw [sortArray, if_neg hfl]

/-- `sortArray` in retain-order mode terminates for every consistent
comparator. -/
theorem sortArray_term_stable {cmp : α → α → Int} (hc : Consistent cmp)
    (a : Int → α) (f l : Int) :
    ∃ fuel out, sortArray cmp fuel a f l true = some out := by
  by_cases hfl : f < l
  · obtain ⟨fuel, out, h⟩ := retainOrderLoop_term hc a f l
    refine ⟨fuel, out, ?_⟩
    rw [sortArray, if_pos hfl, if_pos rfl]
    exact h
  · refine ⟨0, a, ?_⟩
    rw [sortArray, if_neg hfl]

/-- With the comparator that always answers "greater", the retain-order scan
of a 3-element range swaps forever: the cursor oscillates between the first
two positions and never reaches the end. -/
theorem retainOrderLoop_constPos_none :
    ∀ (fuel : Nat) (b : Int → Int) (i : Int), i = 0 ∨ i = 1 →
      retainOrderLoop (fun _ _ => (1 : Int)) fuel b 0 2 i = none := by
  intro fuel
  induction fuel with
  | zero => intro b i _; rfl
  | succ fuel ih =>
    intro b i hi
    rw [retainOrderLoop, if_pos (by omega : i < 2), if_pos (by omega : (0 : Int) < 1)]
    apply ih
    split <;> omega

/-! ### Bound on the auxiliary stack depth (non-stable path) -/

/-- Size chain invariant on the stack (entries listed top first): each entry
is at least as large as the current range together with everything pushed
after it.  This holds because the driver always pushes the larger half and
keeps working inside the smaller half. -/

theorem chainBound_mono : ∀ (L : List Nat) (c c' : Nat), c' ≤ c →
    chainBound c L → chainBound c' L := by
  intro L
  induction L with
  | nil => intro c c' _ _; trivial
  | cons t rest ih =>
    intro c c' hle h
    exact ⟨le_trans hle h.1, ih (c + t) (c' + t) (by omega) h.2⟩

theorem chainBound_pow : ∀ (L : List Nat) (c : Nat), chainBound c L →
    c * 2 ^ L.length ≤ c + L.sum := by
  intro L
  induction L with
  | nil => intro c _; simp
  | cons t rest ih =>
    intro c h
    obtain ⟨hct, hrest⟩ := h
    have h2 := ih (c + t) hrest
    have h3 : c * 2 ^ (t :: rest).length = (2 * c) * 2 ^ rest.length := by
      rw [List.length_cons, pow_succ]
      ring
    have h4 : (2 * c) * 2 ^ rest.length ≤ (c + t) * 2 ^ rest.length :=
      Nat.mul_le_mul_right _ (by omega)
    calc c * 2 ^ (t :: rest).length
        = (2 * c) * 2 ^ rest.length := h3
      _ ≤ (c + t) * 2 ^ rest.length := h4
      _ ≤ (c + t) + rest.sum := h2
      _ = c + (t :: rest).sum := by rw [List.sum_cons]; omega

theorem pow_depth_le {d : Nat} (h : 9 * 2 ^ d < 2 ^ 31) : d ≤ 27 := by
  by_contra hd
  push_neg at hd
  have h1 : (2 : Nat) ^ 28 ≤ 2 ^ d := Nat.pow_le_pow_right (by norm_num) hd
  have h2 : 9 * 2 ^ 28 ≤ 9 * 2 ^ d := Nat.mul_le_mul_left 9 h1
  have h3 : (2 : Nat) ^ 28 = 268435456 := by norm_num
  have h4 : (2 : Nat) ^ 31 = 2147483648 := by norm_num
  omega


theorem QDepthInv.mk' {n : Nat} (x : Int → α) (u v : Int) (st : List (Int × Int))
    (h1 : chainBound (rangeSize (u, v)) (st.map rangeSize))
    (h2 : rangeSize (u, v) + (st.map rangeSize).sum ≤ n)
    (h3 : st.length ≤ 28) : QDepthInv n (⟨x, u, v, st⟩ : QState α) := ⟨h1, h2, h3⟩

theorem qIter_depthInv (cmp : α → α → Int) {n : Nat} (hn : n < 2 ^ 31)
    (s s' : QState α) (h : qIter cmp s = Sum.inr s') (inv : QDepthInv n s) :
    QDepthInv n s' := by
  obtain ⟨hchain, htotal, hdepth⟩ := inv
  rw [qIter] at h
  split at h
  · -- selection branch then pop
    obtain ⟨t1, t2, rest, hst, rfl⟩ := qPop_inr h
    rw [hst] at hchain htotal hdepth
    simp only [List.map_cons, List.sum_cons, List.length_cons] at hchain htotal hdepth
    exact QDepthInv.mk' _ _ _ _ (chainBound_mono _ _ _ (by omega) hchain.2)
      (by omega) (by omega)
  · rename_i hsize
    obtain ⟨a2, i1, j1, hps⟩ : ∃ a2 i1 j1,
        partitionStep cmp s.arr s.lo s.hi = (a2, i1, j1) := ⟨_, _, _, rfl⟩
    obtain ⟨_, _, w3, w4, w5, _, _, _⟩ :=
      partitionStep_spec cmp s.arr s.lo s.hi (by omega) a2 i1 j1 hps
    rw [hps] at h
    have h2 : afterPartition a2 s.lo s.hi i1 j1 s.stack = Sum.inr s' := h
    simp only [afterPartition] at h2
    have hC9 : 9 ≤ rangeSize (s.lo, s.hi) := by
      simp only [rangeSize]
      omega
    have hLS : rangeSize (s.lo, j1 - 1) + rangeSize (i1, s.hi) + 1 ≤
        rangeSize (s.lo, s.hi) := by
      simp only [rangeSize]
      omega
    have hdepth27 : s.stack.length ≤ 27 := by
      have hpow := chainBound_pow _ _ hchain
      have h9 : 9 * 2 ^ (s.stack.map rangeSize).length ≤
          rangeSize (s.lo, s.hi) * 2 ^ (s.stack.map rangeSize).length :=
        Nat.mul_le_mul_right _ hC9
      have hlen : (s.stack.map rangeSize).length = s.stack.length :=
        List.length_map _ _
      rw [hlen] at hpow h9
      exact pow_depth_le (by omega)
    split at h2
    · rename_i hbr
      split at h2
      · -- continue with right part
        have := Sum.inr.inj h2
        subst this
        by_cases hLc : s.lo + 1 < j1
        · refine ⟨?_, ?_, ?_⟩ <;>
            simp only [if_pos hLc, List.map_cons, List.sum_cons, List.length_cons]
          · refine ⟨?_, chainBound_mono _ _ _ ?_ hchain⟩
            · simp only [rangeSize]
              omega
            · omega
          · omega
          · omega
        · refine ⟨?_, ?_, ?_⟩ <;> simp only [if_neg hLc]
          · exact chainBound_mono _ _ _ (by omega) hchain
          · omega
          · exact hdepth
      · -- pop
        by_cases hLc : s.lo + 1 < j1
        · rw [if_pos hLc] at h2
          obtain ⟨t1, t2, rest, hst, rfl⟩ := qPop_inr h2
          rw [List.cons.injEq, Prod.mk.injEq] at hst
          obtain ⟨⟨rfl, rfl⟩, rfl⟩ := hst
          exact QDepthInv.mk' _ _ _ _ (chainBound_mono _ _ _ (by omega) hchain)
            (by omega) hdepth
        · rw [if_neg hLc] at h2
          obtain ⟨t1, t2, rest, hst, rfl⟩ := qPop_inr h2
          rw [hst] at hchain htotal hdepth
          simp only [List.map_cons, List.sum_cons, List.length_cons] at hchain htotal hdepth
          exact QDepthInv.mk' _ _ _ _ (chainBound_mono _ _ _ (by omega) hchain.2)
            (by omega) (by omega)
    · rename_i hbr
      split at h2
      · -- continue with left part
        have := Sum.inr.inj h2
        subst this
        have hbr' : rangeSize (s.lo, j1 - 1) < rangeSize (i1, s.hi) := by
          simp only [rangeSize]
          omega
        by_cases hih : i1 < s.hi
        · refine ⟨?_, ?_, ?_⟩ <;>
            simp only [if_pos hih, List.map_cons, List.sum_cons, List.length_cons]
          · exact ⟨by omega, chainBound_mono _ _ _ (by omega) hchain⟩
          · omega
          · omega
        · refine ⟨?_, ?_, ?_⟩ <;> simp only [if_neg hih]
          · exact chainBound_mono _ _ _ (by omega) hchain
          · omega
          · exact hdepth
      · -- pop
        by_cases hih : i1 < s.hi
        · rw [if_pos hih] at h2
          obtain ⟨t1, t2, rest, hst, rfl⟩ := qPop_inr h2
          rw [List.cons.injEq, Prod.mk.injEq] at hst
          obtain ⟨⟨rfl, rfl⟩, rfl⟩ := hst
          exact QDepthInv.mk' _ _ _ _ (chainBound_mono _ _ _ (by omega) hchain)
            (by omega) hdepth
        · rw [if_neg hih] at h2
          obtain ⟨t1, t2, rest, hst, rfl⟩ := qPop_inr h2
          rw [hst] at hchain htotal hdepth
          simp only [List.map_cons, List.sum_cons, List.length_cons] at hchain htotal hdepth
          exact QDepthInv.mk' _ _ _ _ (chainBound_mono _ _ _ (by omega) hchain.2)
            (by omega) (by omega)


theorem qIterN_depthInv (cmp : α → α → Int) {n : Nat} (hn : n < 2 ^ 31) :
    ∀ (steps : Nat) (s s' : QState α), QDepthInv n s →
      qIterN cmp steps s = some s' → QDepthInv n s' := by
  intro steps
  induction steps with
  | zero =>
    intro s s' inv h
    rw [qIterN] at h
    have := Option.some.inj h
    subst this
    exact inv
  | succ steps ih =>
    intro s s' inv h
    rw [qIterN] at h
    cases hq : qIter cmp s with
    | inl a => rw [hq] at h; simp at h
    | inr s1 =>
      rw [hq] at h
      exact ih s1 s' (qIter_depthInv cmp hn s s1 hq inv) h

/-- Master depth-bound lemma: every state the non-stable driver reaches from a
window of fewer than `2 ^ 31` elements has stack depth at most 28.  In the
source's terms: `stackIndex` never exceeds 28, so every write to
`fromStack`/`toStack` happens at an index in `[0, 27] ⊆ [0, 29]`. -/
theorem qIterN_depth (cmp : α → α → Int) (a : Int → α) (f l : Int)
    (hn : (l - f + 1).toNat < 2 ^ 31) (steps : Nat) (s : QState α)
    (h : qIterN cmp steps ⟨a, f, l, []⟩ = some s) : s.stack.length ≤ 28 := by
  have hinit : QDepthInv (l - f + 1).toNat (⟨a, f, l, []⟩ : QState α) := by
    refine ⟨trivial, ?_, by simp⟩
    simp only [List.map_nil, List.sum_nil, rangeSize]
    omega
  exact (qIterN_depthInv cmp hn steps _ s hinit h).depth

/-! ### Behaviour of the push/continue distribution after a partition step -/

theorem afterPartition_cases (a2 : Int → α) (lo hi i j : Int)
    (st : List (Int × Int)) :
    (hi - i + 1 ≤ j - lo →
      ((2 ≤ j - lo ∧ 2 ≤ hi - i + 1 →
        afterPartition a2 lo hi i j st = Sum.inr ⟨a2, i, hi, (lo, j - 1) :: st⟩) ∧
       (2 ≤ j - lo ∧ hi - i + 1 < 2 →
        afterPartition a2 lo hi i j st = qPop a2 ((lo, j - 1) :: st)) ∧
       (j - lo < 2 →
        afterPartition a2 lo hi i j st = qPop a2 st))) ∧
    (j - lo < hi - i + 1 →
      ((2 ≤ j - lo →
        afterPartition a2 lo hi i j st = Sum.inr ⟨a2, lo, j - 1, (i, hi) :: st⟩) ∧
       (j - lo < 2 ∧ 2 ≤ hi - i + 1 →
        afterPartition a2 lo hi i j st = qPop a2 ((i, hi) :: st)) ∧
       (j - lo < 2 ∧ hi - i + 1 < 2 →
        afterPartition a2 lo hi i j st = qPop a2 st))) := by
  constructor
  · intro hbr
    refine ⟨?_, ?_, ?_⟩
    · rintro ⟨hL, hS⟩
      rw [afterPartition, if_pos (by omega : hi - i ≤ j - 1 - lo)]
      simp only [if_pos (by omega : lo + 1 < j), if_pos (by omega : i < hi)]
    · rintro ⟨hL, hS⟩
      rw [afterPartition, if_pos (by omega : hi - i ≤ j - 1 - lo)]
      simp only [if_pos (by omega : lo + 1 < j), if_neg (by omega : ¬ i < hi)]
    · intro hL
      rw [afterPartition, if_pos (by omega : hi - i ≤ j - 1 - lo)]
      simp only [if_neg (by omega : ¬ lo + 1 < j), if_neg (by omega : ¬ i < hi)]
  · intro hbr
    refine ⟨?_, ?_, ?_⟩
    · intro hL
      rw [afterPartition, if_neg (by omega : ¬ hi - i ≤ j - 1 - lo)]
      simp only [if_pos (by omega : i < hi), if_pos (by omega : lo + 1 < j)]
    · rintro ⟨hL, hS⟩
      rw [afterPartition, if_neg (by omega : ¬ hi - i ≤ j - 1 - lo)]
      simp only [if_pos (by omega : i < hi), if_neg (by omega : ¬ lo + 1 < j)]
    · rintro ⟨hL, hS⟩
      rw [afterPartition, if_neg (by omega : ¬ hi - i ≤ j - 1 - lo)]
      simp only [if_neg (by omega : ¬ i < hi), if_neg (by omega : ¬ lo + 1 < j)]

/-- The `qIter` step routes a large range through `partitionStep` and
`afterPartition` (definitional reading of the partition branch). -/
theorem qIter_partition_branch (cmp : α → α → Int) (s : QState α)
    (hsize : 8 < s.hi - s.lo + 1) :
    qIter cmp s = afterPartition (partitionStep cmp s.arr s.lo s.hi).1
      s.lo s.hi (partitionStep cmp s.arr s.lo s.hi).2.1
      (partitionStep cmp s.arr s.lo s.hi).2.2 s.stack := by
  rw [qIter, if_neg (by omega : ¬ s.hi - s.lo + 1 ≤ 8)]

/-! ### The degenerate-range guard -/

/-- `sortArray` with `lastElement ≤ firstElement` is a no-op: the result is
`some` of the unchanged array, for every comparator, fuel (even 0) and mode —
the guard returns before any comparison or swap can happen. -/
theorem sortArray_noop (cmp : α → α → Int) (fuel : Nat) (a : Int → α)
    (f l : Int) (mode : Bool) (h : l ≤ f) :
    sortArray cmp fuel a f l mode = some a := by
  rw [sortArray, if_neg (by omega : ¬ f < l)]

/-! ### Sorting an already-sorted range -/

/-- The retain-order scan never swaps on a sorted range, so it returns the
array unchanged (no consistency assumption needed). -/
theorem retainOrderLoop_sorted_id {cmp : α → α → Int} {f l : Int} (a : Int → α)
    (hsort : ∀ k, f ≤ k → k + 1 ≤ l → cmp (a k) (a (k + 1)) ≤ 0) :
    ∀ (fuel : Nat) (i : Int) (out : Int → α), f ≤ i →
      retainOrderLoop cmp fuel a f l i = some out → out = a := by
  intro fuel
  induction fuel with
  | zero => intro i out _ h; simp [retainOrderLoop] at h
  | succ fuel ih =>
    intro i out hfi h
    rw [retainOrderLoop] at h
    split at h
    · rename_i hil
      rw [if_neg (by have := hsort i hfi (by omega); omega)] at h
      exact ih (i + 1) out (by omega) h
    · cases h
      rfl

/-- Adjacent sortedness plus comparator transitivity gives pairwise
sortedness of the window. -/
theorem sorted_pairwise {cmp : α → α → Int} (hc : Consistent cmp)
    {f l : Int} {a : Int → α}
    (hsort : ∀ k, f ≤ k → k + 1 ≤ l → cmp (a k) (a (k + 1)) ≤ 0) :
    ∀ (d : Nat) (p q : Int), f ≤ p → p < q → q ≤ l → q - p = d →
      cmp (a p) (a q) ≤ 0 := by
  intro d
  induction d with
  | zero => intro p q _ h _ hd; omega
  | succ d ih =>
    intro p q hp hpq hq hd
    rcases eq_or_lt_of_le (by omega : p + 1 ≤ q) with he | he
    · rw [← he]
      exact hsort p hp (by omega)
    · have h1 : cmp (a p) (a (q - 1)) ≤ 0 := ih p (q - 1) hp (by omega) (by omega) (by omega)
      have h2 : cmp (a (q - 1)) (a q) ≤ 0 := by
        have := hsort (q - 1) (by omega) (by omega)
        rw [show q - 1 + 1 = q by omega] at this
        exact this
      exact hc.trans_nonpos h1 h2

/-- On a strictly ascending run the selection scan tracks the last scanned
index. -/
theorem selScan_ascending {cmp : α → α → Int} (a : Int → α) :
    ∀ (n : Nat) (m : Int),
      (∀ t, m ≤ t → t < m + (n : Int) → 0 < cmp (a (t + 1)) (a t)) →
      selScan cmp a n m (m + 1) = m + (n : Int) := by
  intro n
  induction n with
  | zero => intro m _; rw [selScan]; omega
  | succ n ih =>
    intro m hstep
    rw [selScan, if_pos (by have := hstep m (le_refl m) (by push_cast; omega); exact this)]
    have h := ih (m + 1) (fun t ht1 ht2 => hstep t (by omega) (by push_cast at ht2 ⊢; omega))
    rw [show (m + 1) + 1 = m + 1 + 1 from rfl] at h
    rw [h]
    push_cast
    omega

/-- Selection sort leaves a strictly sorted range untouched: each pass finds
the maximum already at the right end and swaps it with itself. -/
theorem selSortGo_strict_id {cmp : α → α → Int} (lo : Int) :
    ∀ (n : Nat) (a : Int → α) (j : Int), n = (j - lo).toNat →
      (∀ p q, lo ≤ p → p < q → q ≤ j → 0 < cmp (a q) (a p)) →
      selSortGo cmp n a lo j = a := by
  intro n
  induction n with
  | zero => intro a j _ _; rfl
  | succ n ih =>
    intro a j hn hSP
    have hloj : lo < j := by omega
    rw [selSortGo]
    have hscan : selScan cmp a (j - lo).toNat lo (lo + 1) = j := by
      have h := selScan_ascending a (j - lo).toNat lo
        (fun t ht1 ht2 => hSP t (t + 1) ht1 (by omega) (by omega))
      rw [h]
      omega
    rw [hscan, swapF_self]
    exact ih a (j - 1) (by omega)
      (fun p q hp hpq hq => hSP p q hp hpq (by omega))

/-- The stopping index of the ascending scan is determined by its
characteristic properties. -/
theorem scanUp_eq {cmp : α → α → Int} {a : Int → α} {lo hi i r : Int}
    (hi' : i ≤ hi) (h1 : i + 1 ≤ r) (h2 : r ≤ hi + 1)
    (h3 : ∀ k, i < k → k < r → cmp (a k) (a lo) ≤ 0)
    (h4 : r ≤ hi → 0 < cmp (a r) (a lo)) :
    scanUp cmp a lo hi i = r := by
  obtain ⟨u1, u2, u3, u4⟩ := scanUp_spec cmp a lo hi i hi'
  rcases lt_trichotomy (scanUp cmp a lo hi i) r with h | h | h
  · exfalso
    have hle : scanUp cmp a lo hi i ≤ hi := by omega
    have := u4 hle
    have := h3 (scanUp cmp a lo hi i) (by omega) h
    omega
  · exact h
  · exfalso
    have := h4 (by omega)
    have := u3 r (by omega) h
    omega

/-- The stopping index of the descending scan is determined by its
characteristic properties. -/
theorem scanDown_eq {cmp : α → α → Int} {a : Int → α} {lo j r : Int}
    (hj : lo < j) (h1 : r ≤ j - 1) (h2 : lo ≤ r)
    (h3 : ∀ k, r < k → k < j → 0 ≤ cmp (a k) (a lo))
    (h4 : lo < r → cmp (a r) (a lo) < 0) :
    scanDown cmp a lo j = r := by
  obtain ⟨d1, d2, d3, d4⟩ := scanDown_spec cmp a lo j hj
  rcases lt_trichotomy (scanDown cmp a lo j) r with h | h | h
  · exfalso
    have := h4 (by omega)
    have := d3 r h (by omega)
    omega
  · exact h
  · exfalso
    have := d4 (by omega)
    have := h3 (scanDown cmp a lo j) (by omega) (by omega)
    omega

/-- On a strictly sorted range the partition step undoes its own pivot swaps
and returns the array unchanged, with cursors bracketing the midpoint. -/
theorem partitionStep_strict {cmp : α → α → Int} (hc : Consistent cmp)
    (a : Int → α) (lo hi : Int) (hsize : 8 < hi - lo + 1)
    (SP : ∀ p q, lo ≤ p → p < q → q ≤ hi → cmp (a p) (a q) < 0) :
    partitionStep cmp a lo hi =
      (a, lo + (hi - lo + 1) / 2 + 1, lo + (hi - lo + 1) / 2) := by
  set mid := lo + (hi - lo + 1) / 2 with hmid
  have hmid1 : lo + 4 ≤ mid := by omega
  have hmid2 : mid + 1 ≤ hi := by omega
  set b := swapF a mid lo with hb
  have hblo : b lo = a mid := by
    rw [hb, swapF_apply_right]
  have hbmid : b mid = a lo := by
    rw [hb, swapF_apply_left]
  have hbk : ∀ k, k ≠ mid → k ≠ lo → b k = a k :=
    fun k hk1 hk2 => swapF_apply_of_ne a mid lo k hk1 hk2
  have hup : scanUp cmp b lo hi lo = mid + 1 := by
    apply scanUp_eq (by omega) (by omega) (by omega)
    · intro k hk1 hk2
      rw [hblo]
      rcases eq_or_lt_of_le (by omega : k ≤ mid) with he | he
      · rw [he, hbmid]
        exact le_of_lt (SP lo mid (le_refl lo) (by omega) (by omega))
      · rw [hbk k (by omega) (by omega)]
        exact le_of_lt (SP k mid (by omega) he (by omega))
    · intro _
      rw [hblo, hbk (mid + 1) (by omega) (by omega)]
      exact (hc.1 (a (mid + 1)) (a mid)).mpr (SP mid (mid + 1) (by omega) (by omega) (by omega))
  have hdn : scanDown cmp b lo (hi + 1) = mid := by
    apply scanDown_eq (by omega) (by omega) (by omega)
    · intro k hk1 hk2
      rw [hblo, hbk k (by omega) (by omega)]
      have := (hc.1 (a k) (a mid)).mpr (SP mid k (by omega) hk1 (by omega))
      omega
    · intro _
      rw [hblo, hbmid]
      exact SP lo mid (le_refl lo) (by omega) (by omega)
  have hgo : partGo cmp lo hi (hi + 1 - lo).toNat b lo (hi + 1) = (b, mid + 1, mid) := by
    obtain ⟨m, hm⟩ : ∃ m, (hi + 1 - lo).toNat = m + 1 := ⟨(hi - lo).toNat, by omega⟩
    rw [hm, partGo]
    simp only [hup, hdn]
    rw [if_pos (by omega : mid < mid + 1)]
  rw [partitionStep_eq_partGo, hgo]
  simp only []
  rw [hb, swapF_invol]

theorem qIter_strict_arr {cmp : α → α → Int} (hc : Consistent cmp) {f l : Int}
    {a : Int → α} (SP : ∀ p q, f ≤ p → p < q → q ≤ l → cmp (a p) (a q) < 0)
    (s : QState α) (hr : RangesIn f l s) (harr : s.arr = a) :
    (∀ a', qIter cmp s = Sum.inl a' → a' = a) ∧
    (∀ s', qIter cmp s = Sum.inr s' → s'.arr = a) := by
  obtain ⟨⟨hflo, hhil⟩, hst⟩ := hr
  rw [qIter]
  split
  · -- selection branch
    rename_i hsize
    have hsel : selSort cmp s.arr s.lo s.hi = a := by
      rw [harr]
      exact selSortGo_strict_id s.lo _ a s.hi rfl
        (fun p q hp hpq hq =>
          (hc.1 (a q) (a p)).mpr (SP p q (by omega) hpq (by omega)))
    obtain ⟨hl, hr2⟩ :=
      qPop_shape (selSort cmp s.arr s.lo s.hi) (selSort cmp s.arr s.lo s.hi) s.stack
    constructor
    · intro a' ha'
      rw [(hl a' ha').1, hsel]
    · intro s' hs'
      rw [(hr2 s' hs').1, hsel]
  · rename_i hsize
    have hps := partitionStep_strict hc a s.lo s.hi (by omega)
      (fun p q hp hpq hq => SP p q (by omega) hpq (by omega))
    rw [harr, hps]
    obtain ⟨hl, hr2⟩ := afterPartition_shape a a s.lo s.hi
      (s.lo + (s.hi - s.lo + 1) / 2 + 1) (s.lo + (s.hi - s.lo + 1) / 2) s.stack
    constructor
    · intro a' ha'
      exact (hl a' ha').1
    · intro s' hs'
      exact (hr2 s' hs').1

theorem qLoop_strict_id {cmp : α → α → Int} (hc : Consistent cmp) {f l : Int}
    {a : Int → α} (SP : ∀ p q, f ≤ p → p < q → q ≤ l → cmp (a p) (a q) < 0) :
    ∀ (fuel : Nat) (s : QState α) (out : Int → α), s.arr = a → RangesIn f l s →
      qLoop cmp fuel s = some out → out = a := by
  intro fuel
  induction fuel with
  | zero => intro s out _ _ h; simp [qLoop] at h
  | succ fuel ih =>
    intro s out harr hr h
    rw [qLoop] at h
    obtain ⟨hinl, hinr⟩ := qIter_strict_arr hc SP s hr harr
    obtain ⟨_, hri⟩ := qIter_permWithin cmp s hr
    cases hq : qIter cmp s with
    | inl a' =>
      rw [hq] at h
      obtain rfl : a' = out := by
        cases h
        rfl
      exact hinl _ hq
    | inr s' =>
      rw [hq] at h
      exact ih s' out (hinr s' hq) ((hri s' hq).2) h

/-- Sorting an already-sorted range (strictly sorted in non-stable mode)
returns the identical array.  Retain-order mode needs only adjacent
sortedness; the non-stable mode needs the comparator to be consistent and to
distinguish all elements of the range. -/
theorem sortArray_sorted_id {cmp : α → α → Int} (fuel : Nat) (a : Int → α)
    (f l : Int) (out : Int → α)
    (hsort : ∀ k, f ≤ k → k + 1 ≤ l → cmp (a k) (a (k + 1)) ≤ 0) :
    (sortArray cmp fuel a f l true = some out → out = a) ∧
    (Consistent cmp →
      (∀ p q, f ≤ p → p < q → q ≤ l → cmp (a p) (a q) ≠ 0) →
      sortArray cmp fuel a f l false = some out → out = a) := by
  constructor
  · intro h
    rw [sortArray] at h
    split at h
    · rw [if_pos rfl] at h
      exact retainOrderLoop_sorted_id a hsort fuel f out (le_refl f) h
    · cases h
      rfl
  · intro hc hne h
    have SP : ∀ p q, f ≤ p → p < q → q ≤ l → cmp (a p) (a q) < 0 := by
      intro p q hp hpq hq
      have h1 := sorted_pairwise hc hsort (q - p).toNat p q hp hpq hq (by omega)
      have h2 := hne p q hp hpq hq
      omega
    rw [sortArray] at h
    split at h
    · rw [if_neg Bool.false_ne_true] at h
      exact qLoop_strict_id hc SP fuel ⟨a, f, l, []⟩ out rfl
        ⟨⟨le_refl f, le_refl l⟩, fun r hr => by simp at hr⟩ h
    · cases h
      rfl

/-! ### The probe trace of the binary search -/

/-- The second component of the instrumented twin is the plain search result. -/
theorem findLoopTr_result (cmp : α → α → Int) (x : α) (a : Int → α) :
    ∀ (fuel : Nat) (f l : Int),
      (findLoopTr cmp x a fuel f l).2 = findLoopGo cmp x a fuel f l := by
  intro fuel
  induction fuel with
  | zero => intro f l; rfl
  | succ fuel ih =>
    intro f l
    rw [findLoopTr, findLoopGo]
    simp only []
    split_ifs <;> first
      | rfl
      | exact ih _ _

/-- If the search path probes an index holding an element equal to
`newElement`, and `p` is the first such probe, the loop stops at `p + 1`:
the insert position is one past the first equal element the path meets. -/
theorem findLoopTr_first_equal (cmp : α → α → Int) (x : α) (a : Int → α) :
    ∀ (fuel : Nat) (f l : Int), (l - f).toNat ≤ fuel →
      ∀ (pre : List Int) (p : Int) (post : List Int),
        (findLoopTr cmp x a fuel f l).1 = pre ++ p :: post →
        (∀ q ∈ pre, cmp x (a q) ≠ 0) → cmp x (a p) = 0 →
        (findLoopTr cmp x a fuel f l).2 = p + 1 := by
  intro fuel
  induction fuel with
  | zero =>
    intro f l _ pre p post htr _ _
    simp [findLoopTr] at htr
  | succ fuel ih =>
    intro f l hfuel pre p post htr hpre hp0
    by_cases hfl : f < l
    · by_cases heq : cmp x (a f) = 0
      · rw [findLoopTr, if_pos hfl, if_pos heq] at htr ⊢
        simp only [] at htr ⊢
        cases pre with
        | nil =>
          obtain ⟨rfl, -⟩ := List.cons.inj htr
          rfl
        | cons u pre2 =>
          simp only [List.cons_append] at htr
          obtain ⟨-, htr2⟩ := List.cons.inj htr
          exact absurd htr2.symm (by simp)
      · rw [findLoopTr, if_pos hfl, if_neg heq] at htr ⊢
        simp only [] at htr ⊢
        by_cases hhf : (f + l) / 2 = f
        · rw [if_pos hhf] at htr ⊢
          -- both probes sit at index `f`, where the comparator is nonzero
          exfalso
          have hpmem : p ∈ pre ++ p :: post := List.mem_append_right _ (List.mem_cons_self _ _)
          rw [← htr] at hpmem
          simp only [List.mem_cons, List.not_mem_nil, or_false] at hpmem
          rcases hpmem with h | h
          · rw [h] at hp0
            exact heq hp0
          · rw [h, hhf] at hp0
            exact heq hp0
        · rw [if_neg hhf] at htr ⊢
          have hge : f ≤ (f + l) / 2 ∧ (f + l) / 2 < l := by omega
          by_cases hcm : 0 ≤ cmp x (a ((f + l) / 2))
          · rw [if_pos hcm] at htr ⊢
            simp only [] at htr ⊢
            cases pre with
            | nil =>
              simp only [List.nil_append] at htr
              obtain ⟨rfl, -⟩ := List.cons.inj htr
              exact absurd hp0 heq
            | cons u pre2 =>
              simp only [List.cons_append] at htr
              obtain ⟨rfl, htr2⟩ := List.cons.inj htr
              cases pre2 with
              | nil =>
                simp only [List.nil_append] at htr2
                obtain ⟨rfl, -⟩ := List.cons.inj htr2
                -- `p` is the halfway probe itself; the next iteration stops there
                obtain ⟨fuel2, rfl⟩ : ∃ m, fuel = m + 1 :=
                  ⟨fuel - 1, by omega⟩
                rw [findLoopTr, if_pos hge.2, if_pos hp0]
              | cons v pre3 =>
                simp only [List.cons_append] at htr2
                obtain ⟨rfl, htr3⟩ := List.cons.inj htr2
                exact ih ((f + l) / 2) l (by omega) pre3 p post htr3
                  (fun q hq => hpre q (by simp [hq])) hp0
          · rw [if_neg hcm] at htr ⊢
            simp only [] at htr ⊢
            cases pre with
            | nil =>
              simp only [List.nil_append] at htr
              obtain ⟨rfl, -⟩ := List.cons.inj htr
              exact absurd hp0 heq
            | cons u pre2 =>
              simp only [List.cons_append] at htr
              obtain ⟨rfl, htr2⟩ := List.cons.inj htr
              cases pre2 with
              | nil =>
                simp only [List.nil_append] at htr2
                obtain ⟨rfl, -⟩ := List.cons.inj htr2
                rw [hp0] at hcm
                exact absurd (le_refl 0) hcm
              | cons v pre3 =>
                simp only [List.cons_append] at htr2
                obtain ⟨rfl, htr3⟩ := List.cons.inj htr2
                exact ih f ((f + l) / 2) (by omega) pre3 p post htr3
                  (fun q hq => hpre q (by simp [hq])) hp0
    · rw [findLoopTr, if_neg hfl] at htr
      simp only [] at htr
      exact absurd htr.symm (by simp)

/-- `findInsertIndexInSortedArray` stops one past the first equal element its
binary-search path probes. -/
theorem findInsertIndex_first_equal (cmp : α → α → Int) (x : α) (a : Int → α)
    (f l : Int) (pre : List Int) (p : Int) (post : List Int)
    (htr : (findLoopTr cmp x a (l - f).toNat f l).1 = pre ++ p :: post)
    (hpre : ∀ q ∈ pre, cmp x (a q) ≠ 0) (hp0 : cmp x (a p) = 0) :
    findInsertIndexInSortedArray cmp a x f l = p + 1 := by
  rw [findInsertIndexInSortedArray, ← findLoopTr_result]
  exact findLoopTr_first_equal cmp x a (l - f).toNat f l (le_refl _)
    pre p post htr hpre hp0

/-! ### Facts about the concrete instances -/

theorem defaultCompareElements_int_consistent :
    Consistent (defaultCompareElements : Int → Int → Int) := by
  constructor
  · intro x y
    simp only [defaultCompareElements]
    split_ifs <;> omega
  · intro x y z h1 h2
    simp only [defaultCompareElements] at h1 h2 ⊢
    split_ifs at h1 h2 ⊢ <;> omega

theorem cmpFst_consistent : Consistent cmpFst := by
  constructor
  · intro x y
    simp only [cmpFst, defaultCompareElements]
    split_ifs <;> omega
  · intro x y z h1 h2
    simp only [cmpFst, defaultCompareElements] at h1 h2 ⊢
    split_ifs at h1 h2 ⊢ <;> omega

theorem arrStrict_sorted : ∀ k : Int, 0 ≤ k → k + 1 ≤ 3 →
    (defaultCompareElements : Int → Int → Int) (arrStrict k) (arrStrict (k + 1)) ≤ 0 := by
  intro k h1 h2
  have h3 : k = 0 ∨ k = 1 ∨ k = 2 := by omega
  rcases h3 with rfl | rfl | rfl <;> decide

theorem arrStrict_distinct : ∀ p q : Int, 0 ≤ p → p < q → q ≤ 3 →
    (defaultCompareElements : Int → Int → Int) (arrStrict p) (arrStrict q) ≠ 0 := by
  intro p q hp hpq hq
  have hp3 : p = 0 ∨ p = 1 ∨ p = 2 ∨ p = 3 := by omega
  have hq3 : q = 0 ∨ q = 1 ∨ q = 2 ∨ q = 3 := by omega
  rcases hp3 with rfl | rfl | rfl | rfl <;> rcases hq3 with rfl | rfl | rfl | rfl <;>
    revert hpq <;> decide

/-! ### The claims -/

/-- C1: for every array, every index range, every consistent three-way
comparator and either value of `retainOrderOfEquivalentItems`, after
`sortArray` returns, every adjacent pair of the range `[firstElement,
lastElement]` satisfies `compareElements(array[i], array[i+1]) <= 0`. -/
theorem claim_C1 {cmp : α → α → Int} (hc : Consistent cmp) (fuel : Nat)
    (a : Int → α) (f l : Int) (mode : Bool) (out : Int → α)
    (h : sortArray cmp fuel a f l mode = some out) :
    ∀ k, f ≤ k → k + 1 ≤ l → cmp (out k) (out (k + 1)) ≤ 0 :=
  sortArray_sorted hc fuel a f l mode out h

/-- Witness for C1: the completed non-stable run on `[1, 3, 3, 5]`. -/
theorem claim_C1_witness :
    (defaultCompareElements : Int → Int → Int)
      ((sortArray (defaultCompareElements : Int → Int → Int) 9 arr1335 0 3 false).iget 0)
      ((sortArray (defaultCompareElements : Int → Int → Int) 9 arr1335 0 3 false).iget 1) ≤ 0 :=
  claim_C1 defaultCompareElements_int_consistent 9 arr1335 0 3 false
    ((sortArray (defaultCompareElements : Int → Int → Int) 9 arr1335 0 3 false).iget)
    rfl 0 (by decide) (by decide)

/-- C2: for every array, index range, comparator and either mode, a completed
`sortArray` run only permutes the contents of `[firstElement, lastElement]`:
the window's multiset of elements is unchanged and every index outside the
window holds its original element. -/
theorem claim_C2 (cmp : α → α → Int) (fuel : Nat) (a : Int → α) (f l : Int)
    (mode : Bool) (out : Int → α) (h : sortArray cmp fuel a f l mode = some out) :
    PermWithin f l a out :=
  sortArray_permWithin cmp fuel a f l mode out h

/-- Witness for C2: the completed non-stable run on `[1, 3, 3, 5]`. -/
theorem claim_C2_witness :
    PermWithin 0 3 arr1335
      ((sortArray (defaultCompareElements : Int → Int → Int) 9 arr1335 0 3 false).iget) :=
  claim_C2 (defaultCompareElements : Int → Int → Int) 9 arr1335 0 3 false
    ((sortArray (defaultCompareElements : Int → Int → Int) 9 arr1335 0 3 false).iget) rfl

/-- C3: for every array and every consistent comparator, a completed
retain-order run is stable: it realises a permutation `p` of the indices
fixing everything outside the window, and any two window elements on which
the comparator returns 0 keep their original relative order (`p` is
increasing on each output pair of comparator-equal elements). -/
theorem claim_C3 {cmp : α → α → Int} (hc : Consistent cmp) (fuel : Nat)
    (a : Int → α) (f l : Int) (out : Int → α)
    (h : sortArray cmp fuel a f l true = some out) :
    ∃ p : Int → Int, Function.Bijective p ∧ (∀ k, k < f ∨ l < k → p k = k) ∧
      (∀ k, out k = a (p k)) ∧
      (∀ u v, f ≤ u → u < v → v ≤ l → cmp (a (p u)) (a (p v)) = 0 → p u < p v) :=
  sortArray_stable hc fuel a f l out h

/-- Witness for C3: the completed retain-order run on `[1, 3, 3, 5]`. -/
theorem claim_C3_witness :
    ∃ p : Int → Int, Function.Bijective p ∧ (∀ k, k < 0 ∨ 3 < k → p k = k) ∧
      (∀ k, (sortArray (defaultCompareElements : Int → Int → Int) 9 arr1335 0 3 true).iget k =
        arr1335 (p k)) ∧
      (∀ u v, 0 ≤ u → u < v → v ≤ 3 →
        (defaultCompareElements : Int → Int → Int) (arr1335 (p u)) (arr1335 (p v)) = 0 →
        p u < p v) :=
  claim_C3 defaultCompareElements_int_consistent 9 arr1335 0 3
    ((sortArray (defaultCompareElements : Int → Int → Int) 9 arr1335 0 3 true).iget) rfl

/-- C4 (corrected): sorting an already-sorted range leaves every element in
place in retain-order mode; in non-stable mode the same holds provided the
comparator is consistent and no two distinct positions of the range compare
equal.  (Without that proviso the non-stable selection sort may move
comparator-equal elements, as `claim_C4_counterexample` shows.) -/
theorem claim_C4 {cmp : α → α → Int} (fuel : Nat) (a : Int → α) (f l : Int)
    (out : Int → α)
    (hsort : ∀ k, f ≤ k → k + 1 ≤ l → cmp (a k) (a (k + 1)) ≤ 0) :
    (sortArray cmp fuel a f l true = some out → ∀ k, out k = a k) ∧
    (Consistent cmp → (∀ p q, f ≤ p → p < q → q ≤ l → cmp (a p) (a q) ≠ 0) →
      sortArray cmp fuel a f l false = some out → ∀ k, out k = a k) := by
  obtain ⟨h1, h2⟩ := sortArray_sorted_id fuel a f l out hsort
  exact ⟨fun h k => by rw [h1 h], fun hc hne h k => by rw [h2 hc hne h]⟩

/-- Witness for C4: both modes leave the strictly sorted `[2, 4, 6, 8]`
unchanged. -/
theorem claim_C4_witness :
    (sortArray (defaultCompareElements : Int → Int → Int) 9 arrStrict 0 3 true).iget 0 =
      arrStrict 0 ∧
    (sortArray (defaultCompareElements : Int → Int → Int) 9 arrStrict 0 3 false).iget 0 =
      arrStrict 0 :=
  ⟨(claim_C4 9 arrStrict 0 3
      ((sortArray (defaultCompareElements : Int → Int → Int) 9 arrStrict 0 3 true).iget)
      arrStrict_sorted).1 rfl 0,
   (claim_C4 9 arrStrict 0 3
      ((sortArray (defaultCompareElements : Int → Int → Int) 9 arrStrict 0 3 false).iget)
      arrStrict_sorted).2 defaultCompareElements_int_consistent arrStrict_distinct rfl 0⟩

/-- Counterexample to C4 as stated: `pairArr = [(1,10), (1,20)]` is already
sorted under the consistent comparator `cmpFst` (the keys are equal), yet the
non-stable mode swaps the two elements: position 0 changes. -/
theorem claim_C4_counterexample :
    Consistent cmpFst ∧
    (∀ k : Int, 0 ≤ k → k + 1 ≤ 1 → cmpFst (pairArr k) (pairArr (k + 1)) ≤ 0) ∧
    sortArray cmpFst 9 pairArr 0 1 false =
      some ((sortArray cmpFst 9 pairArr 0 1 false).iget) ∧
    (sortArray cmpFst 9 pairArr 0 1 false).iget 0 ≠ pairArr 0 := by
  refine ⟨cmpFst_consistent, ?_, rfl, by decide⟩
  intro k h1 h2
  obtain rfl : k = 0 := by omega
  decide

/-- C5: with `lastElement ≤ firstElement` the call is a no-op: it completes
(with any fuel, even 0, so before any comparison or swap could run) and
returns the array unchanged. -/
theorem claim_C5 (cmp : α → α → Int) (fuel : Nat) (a : Int → α) (f l : Int)
    (mode : Bool) (h : l ≤ f) : sortArray cmp fuel a f l mode = some a :=
  sortArray_noop cmp fuel a f l mode h

/-- Witness for C5: an inverted two-index range with fuel 0. -/
theorem claim_C5_witness :
    sortArray (defaultCompareElements : Int → Int → Int) 0 arr1335 2 1 true =
      some arr1335 :=
  claim_C5 (defaultCompareElements : Int → Int → Int) 0 arr1335 2 1 true (by decide)

/-- C6: `findInsertIndexInSortedArray` on `[1, 3, 3, 5]` with the
natural-order comparator, `newElement = 3`, range `[0, 4)`, returns 3; and in
general, whenever the binary-search path probes an element equal to
`newElement`, the result is one past the first such probe (`p + 1` where `p`
is the first probed index whose element compares equal). -/
theorem claim_C6 :
    findInsertIndexInSortedArray (defaultCompareElements : Int → Int → Int)
      arr1335 3 0 4 = 3 ∧
    (∀ {β : Type u} (cmp : β → β → Int) (x : β) (a : Int → β) (f l : Int)
        (pre : List Int) (p : Int) (post : List Int),
      (findLoopTr cmp x a (l - f).toNat f l).1 = pre ++ p :: post →
      (∀ q ∈ pre, cmp x (a q) ≠ 0) → cmp x (a p) = 0 →
      findInsertIndexInSortedArray cmp a x f l = p + 1) :=
  ⟨by decide,
   fun cmp x a f l pre p post h1 h2 h3 =>
     findInsertIndex_first_equal cmp x a f l pre p post h1 h2 h3⟩

/-- Witness for C6: on `[1, 3, 3, 5]` the probe trace is `[0, 2, 2]`, the
first equal probe is index 2, and the result is `2 + 1`. -/
theorem claim_C6_witness :
    findInsertIndexInSortedArray (defaultCompareElements : Int → Int → Int)
      arr1335 3 0 4 = 2 + 1 :=
  claim_C6.2 (defaultCompareElements : Int → Int → Int) 3 arr1335 0 4
    [0] 2 [2] rfl (by decide) (by decide)

/-- C7: in the non-stable path, a range of size above 8 goes through one
Hoare partition step producing sub-ranges `[lo, j-1]` (size `j - lo`) and
`[i, hi]` (size `hi - i + 1`); the larger sub-range is pushed onto the
auxiliary stack while the smaller one is processed immediately as the new
current range, and any sub-range of size < 2 is skipped (neither pushed nor
processed; `qPop` is the end-of-iteration pop). -/
theorem claim_C7 (cmp : α → α → Int) (s : QState α)
    (hsize : 8 < s.hi - s.lo + 1) (a2 : Int → α) (i j : Int)
    (hps : partitionStep cmp s.arr s.lo s.hi = (a2, i, j)) :
    (s.hi - i + 1 ≤ j - s.lo →
      ((2 ≤ j - s.lo ∧ 2 ≤ s.hi - i + 1 →
        qIter cmp s = Sum.inr ⟨a2, i, s.hi, (s.lo, j - 1) :: s.stack⟩) ∧
       (2 ≤ j - s.lo ∧ s.hi - i + 1 < 2 →
        qIter cmp s = qPop a2 ((s.lo, j - 1) :: s.stack)) ∧
       (j - s.lo < 2 →
        qIter cmp s = qPop a2 s.stack))) ∧
    (j - s.lo < s.hi - i + 1 →
      ((2 ≤ j - s.lo →
        qIter cmp s = Sum.inr ⟨a2, s.lo, j - 1, (i, s.hi) :: s.stack⟩) ∧
       (j - s.lo < 2 ∧ 2 ≤ s.hi - i + 1 →
        qIter cmp s = qPop a2 ((i, s.hi) :: s.stack)) ∧
       (j - s.lo < 2 ∧ s.hi - i + 1 < 2 →
        qIter cmp s = qPop a2 s.stack))) := by
  have hbr := qIter_partition_branch cmp s hsize
  rw [hps] at hbr
  simp only [] at hbr
  rw [hbr]
  exact afterPartition_cases a2 s.lo s.hi i j s.stack

/-- Witness for C7: on the 10-element window `0..9` the partition returns
`i = 6`, `j = 5`; the left sub-range `[0, 4]` (size 5) is larger, so it is
pushed and the right sub-range `[6, 9]` (size 4) becomes current. -/
theorem claim_C7_witness :
    qIter (defaultCompareElements : Int → Int → Int) ⟨arrTen, 0, 9, []⟩ =
      Sum.inr ⟨(partitionStep (defaultCompareElements : Int → Int → Int) arrTen 0 9).1,
        6, 9, [(0, 4)]⟩ :=
  ((claim_C7 (defaultCompareElements : Int → Int → Int) ⟨arrTen, 0, 9, []⟩ (by decide)
      (partitionStep (defaultCompareElements : Int → Int → Int) arrTen 0 9).1 6 5
      rfl).1 (by decide)).1 (by decide)

/-- C8: in the non-stable path, for every window expressible with `int`
indices (size < 2^31) and every comparator, every state the driver reaches
keeps the auxiliary stack depth at most 28; hence every push writes
`fromStack`/`toStack` at an index at most 27, within the capacity-30
arrays (indices `[0, 29]`). -/
theorem claim_C8 (cmp : α → α → Int) (a : Int → α) (f l : Int)
    (hn : (l - f + 1).toNat < 2 ^ 31) (steps : Nat) (s : QState α)
    (h : qIterN cmp steps ⟨a, f, l, []⟩ = some s) : s.stack.length ≤ 28 :=
  qIterN_depth cmp a f l hn steps s h

/-- Witness for C8: the state after one driver step on the window `0..9`. -/
theorem claim_C8_witness :
    ((⟨(partitionStep (defaultCompareElements : Int → Int → Int) arrTen 0 9).1,
      6, 9, [(0, 4)]⟩ : QState Int)).stack.length ≤ 28 :=
  claim_C8 (defaultCompareElements : Int → Int → Int) arrTen 0 9 (by decide) 1 _ rfl

/-- C9: `sortArray` touches only the window: a completed run leaves every
index outside `[firstElement, lastElement]` unchanged (no write outside the
window), and two arrays agreeing on the window produce runs agreeing on the
window (no read outside the window influences the outcome). -/
theorem claim_C9 (cmp : α → α → Int) (fuel : Nat) (a b : Int → α) (f l : Int)
    (mode : Bool) (out : Int → α) (h : sortArray cmp fuel a f l mode = some out)
    (hab : AgreeOn f l a b) :
    (∀ k, k < f ∨ l < k → out k = a k) ∧
    ∃ outb, sortArray cmp fuel b f l mode = some outb ∧ AgreeOn f l out outb :=
  ⟨(sortArray_permWithin cmp fuel a f l mode out h).1,
   sortArray_agree cmp fuel a b f l mode out hab h⟩

/-- Witness for C9: the completed non-stable run on `[1, 3, 3, 5]` leaves
index 5 unchanged and is matched on the window by the run on the same
array. -/
theorem claim_C9_witness :
    (sortArray (defaultCompareElements : Int → Int → Int) 9 arr1335 0 3 false).iget 5 =
      arr1335 5 ∧
    ∃ outb, sortArray (defaultCompareElements : Int → Int → Int) 9 arr1335 0 3 false =
      some outb ∧
      AgreeOn 0 3
        ((sortArray (defaultCompareElements : Int → Int → Int) 9 arr1335 0 3 false).iget)
        outb := by
  have h := claim_C9 (defaultCompareElements : Int → Int → Int) 9 arr1335 arr1335 0 3
    false
    ((sortArray (defaultCompareElements : Int → Int → Int) 9 arr1335 0 3 false).iget)
    rfl (fun t _ _ => rfl)
  exact ⟨h.1 5 (Or.inr (by decide)), h.2⟩

/-- C10 (corrected): the non-stable mode terminates for every comparator
(some fuel completes the run); the retain-order mode terminates for every
consistent comparator.  (For an inconsistent comparator the retain-order scan
can run forever, as `claim_C10_counterexample` shows.) -/
theorem claim_C10 (cmp : α → α → Int) (a : Int → α) (f l : Int) :
    (∃ fuel out, sortArray cmp fuel a f l false = some out) ∧
    (Consistent cmp → ∃ fuel out, sortArray cmp fuel a f l true = some out) :=
  ⟨sortArray_term_nonstable cmp a f l, fun hc => sortArray_term_stable hc a f l⟩

/-- Witness for C10: the retain-order run on `[1, 3, 3, 5]` with the
consistent natural-order comparator completes. -/
theorem claim_C10_witness :
    ∃ fuel out, sortArray (defaultCompareElements : Int → Int → Int) fuel
      arr1335 0 3 true = some out :=
  (claim_C10 (defaultCompareElements : Int → Int → Int) arr1335 0 3).2
    defaultCompareElements_int_consistent

/-- Counterexample to C10 as stated: with the (inconsistent) comparator that
always answers "greater", the retain-order scan of a 3-element range never
terminates — no fuel completes the run. -/
theorem claim_C10_counterexample :
    ¬ ∃ fuel out,
      sortArray (fun _ _ => (1 : Int)) fuel (fun _ => (0 : Int)) 0 2 true = some out := by
  rintro ⟨fuel, out, h⟩
  rw [sortArray, if_pos (by omega : (0 : Int) < 2), if_pos rfl] at h
  rw [retainOrderLoop_constPos_none fuel _ 0 (Or.inl rfl)] at h
  exact Option.noConfusion h

end ZguiElementComparator
